import Mathlib

/-!
# Verification of the MiniStruct schema compiler and binary codec (`src/structExt.js`)

This file is a shallow embedding, in Lean 4, of the MiniStruct class of the
repository's `structExt.js` (the first, feature-complete draft in that file:
integer flavors with declared ranges, fixed-width little-endian integers,
64-bit `float`, enums with local/global scoping, length-prefixed strings and
nested structs).  JavaScript numbers are embedded as either exact integers or
IEEE-754 binary64 bit patterns, byte buffers as `List Nat` (each entry < 256),
JavaScript objects as association lists with overwrite-on-assign semantics,
and thrown exceptions as `Except String`.  All definitions are executable so
concrete schemas and values can be evaluated inside theorems.
-/

set_option maxRecDepth 8000
set_option maxHeartbeats 1000000

namespace StructExt

/-! ## JavaScript integer conversions

`ToInt32` / `ToUint32` as used by the bitwise operators `|`, `&`, `<<`, `>>>`,
and `ToUint8` as applied by `Uint8Array.from` to each pushed element. -/

/-- JavaScript `ToUint32` on an integral number. -/
def toUint32 (n : Int) : Nat := (n.emod (2 ^ 32)).toNat

/-- JavaScript `ToInt32` on an integral number. -/

def toInt32 (n : Int) : Int :=
  let m := n.emod (2 ^ 32)
  if m < 2 ^ 31 then m else m - 2 ^ 32

/-- JavaScript `ToUint8`, applied by `Uint8Array.from` to each element. -/

def toUint8 (n : Int) : Nat := (n.emod 256).toNat

/-- JavaScript 32-bit bitwise or: both operands pass through `ToInt32`. -/

def jsOr (a b : Int) : Int :=
  toInt32 ((Nat.lor (toUint32 a) (toUint32 b) : Nat) : Int)

/-- JavaScript `x << s` for a nonnegative integral shift count:
the left operand passes through `ToInt32`, the count is taken mod 32,
and the result is the 32-bit pattern read as a signed integer. -/

def jsShl (x : Int) (s : Nat) : Int :=
  toInt32 (x * 2 ^ (s % 32))

def leBytes : Nat → Nat → List Nat
  | 0, _ => []
  | w + 1, n => n % 256 :: leBytes w (n / 256)

/-- Read `w` little-endian bytes back into a natural number. -/

def fromLeBytes : List Nat → Nat
  | [] => 0
  | b :: bs => b + 256 * fromLeBytes bs

def lbrace : Char := Char.ofNat 123

/-- The character `}`. -/

def rbrace : Char := Char.ofNat 125

/-- JS regex `\s` (ASCII part, which is all the schema texts use). -/

def jsIsSpace (c : Char) : Bool :=
  c = ' ' || c = '\t' || c = '\n' || c = '\r' || c = Char.ofNat 11 || c = Char.ofNat 12

/-- JS regex `\w`: letters, digits, underscore. -/

def jsIsWord (c : Char) : Bool :=
  ('a' ≤ c && c ≤ 'z') || ('A' ≤ c && c ≤ 'Z') || ('0' ≤ c && c ≤ '9') || c = '_'

/-- JS regex `\d`. -/

def jsIsDigit (c : Char) : Bool := '0' ≤ c && c ≤ '9'

/-- `String.prototype.trim` on a character list. -/

def jsTrim (cs : List Char) : List Char :=
  ((cs.dropWhile jsIsSpace).reverse.dropWhile jsIsSpace).reverse

/-- `String.prototype.split(sep)` for a single-character separator:
returns every (possibly empty) segment. -/

def jsSplitOn (sep : Char) : List Char → List (List Char)
  | [] => [[]]
  | c :: cs =>
      if c = sep then
        [] :: jsSplitOn sep cs
      else
        match jsSplitOn sep cs with
        | [] => [[c]]
        | seg :: rest => (c :: seg) :: rest

def jsWordsGo : List Char → List Char → List (List Char)
  | [], cur => if cur = [] then [] else [cur.reverse]
  | c :: cs, cur =>
      if jsIsSpace c then
        if cur = [] then jsWordsGo cs [] else cur.reverse :: jsWordsGo cs []
      else jsWordsGo cs (c :: cur)

def jsWords (cs : List Char) : List (List Char) := jsWordsGo cs []

/-- Does `pat` occur as a prefix of `cs`? (`List.isPrefixOf` specialised, kept
decidable over characters). -/

def charsPrefix (pat cs : List Char) : Bool :=
  match pat, cs with
  | [], _ => true
  | _ :: _, [] => false
  | p :: ps, c :: cs => p = c && charsPrefix ps cs

/-- `String.prototype.indexOf(pat, from)` over character lists: the first
index `≥ from` where `pat` occurs, or `none`. -/

def jsIndexOfAux (pat : List Char) : List Char → Nat → Option Nat
  | [], i => if pat = [] then some i else none
  | c :: cs, i =>
      if charsPrefix pat (c :: cs) then some i
      else jsIndexOfAux pat cs (i + 1)

def jsIndexOfFrom (cs pat : List Char) (start : Nat) : Option Nat :=
  (jsIndexOfAux pat (cs.drop start) 0).map (· + start)

/-- `String.prototype.slice(a, b)` for `0 ≤ a ≤ b` (the only form the parser
uses). -/

def jsSliceChars (cs : List Char) (a b : Nat) : List Char :=
  (cs.take b).drop a

/-! ## IEEE-754 bit-level model

JavaScript numbers are binary64 values.  The embedding represents a number
either as an exact integer (`Value.vInt`, for numbers whose value is an
integer — the canonical form, since `Number.isInteger` distinguishes exactly
those) or as its binary64 bit pattern (`Value.vF64`, for non-integral
numbers, `NaN`, infinities and `-0`).  `DataView.setFloat32` narrows a
binary64 value to binary32 with round-to-nearest, ties-to-even;
`DataView.getFloat32` widens exactly.  Both conversions are implemented here
on bit patterns. -/

/-- Floor of the base-2 logarithm, by structural recursion on a fuel bound
so that it evaluates inside the kernel (`Nat.log2` itself is defined by
well-founded recursion and does not). -/

def natLog2F : Nat → Nat → Nat
  | 0, _ => 0
  | fuel + 1, n => if n < 2 then 0 else natLog2F fuel (n / 2) + 1

def natLog2 (n : Nat) : Nat := natLog2F n n

/-- Round `S / 2^k` to the nearest integer, ties to even. -/

def rne (S k : Nat) : Nat :=
  if k = 0 then S
  else
    let q := S / 2 ^ k
    let r := S % 2 ^ k
    if r > 2 ^ (k - 1) || (r = 2 ^ (k - 1) && q % 2 = 1) then q + 1 else q

/-- Exact widening of a binary32 bit pattern to binary64
(`DataView.getFloat32` produces a JS number with exactly this pattern). -/

def f32ToF64 (b : Nat) : Nat :=
  let s := b / 2 ^ 31 % 2
  let e := b / 2 ^ 23 % 2 ^ 8
  let m := b % 2 ^ 23
  if e = 255 then
    -- infinity / NaN: maximal exponent, payload widened
    s * 2 ^ 63 + 2047 * 2 ^ 52 + m * 2 ^ 29
  else if e = 0 then
    if m = 0 then s * 2 ^ 63
    else
      -- binary32 subnormal `m * 2^-149` becomes a binary64 normal number
      let k := natLog2 m
      s * 2 ^ 63 + (k + 874) * 2 ^ 52 + (m - 2 ^ k) * 2 ^ (52 - k)
  else s * 2 ^ 63 + (e + 896) * 2 ^ 52 + m * 2 ^ 29

/-- Narrowing of a binary64 bit pattern to binary32 with round-to-nearest,
ties-to-even (`DataView.setFloat32`).  NaNs are stored as the signed quiet
NaN pattern. -/

def f64ToF32 (b : Nat) : Nat :=
  let s := b / 2 ^ 63 % 2
  let e := b / 2 ^ 52 % 2 ^ 11
  let m := b % 2 ^ 52
  if e = 2047 then
    if m = 0 then s * 2 ^ 31 + 255 * 2 ^ 23
    else s * 2 ^ 31 + 255 * 2 ^ 23 + 2 ^ 22
  else if e ≥ 897 then
    -- result lands in the binary32 normal range (or overflows to infinity);
    -- the biased binary32 exponent is `e - 896`
    let c := rne (2 ^ 52 + m) 29
    let c' := if c = 2 ^ 24 then 2 ^ 23 else c
    let eb := (if c = 2 ^ 24 then e + 1 else e) - 896
    if eb ≥ 255 then s * 2 ^ 31 + 255 * 2 ^ 23
    else s * 2 ^ 31 + eb * 2 ^ 23 + (c' - 2 ^ 23)
  else
    -- result is a binary32 subnormal (or rounds up to the smallest normal):
    -- round the value onto the `2^-149` grid; the encoding is seamless
    let S := if e = 0 then m else 2 ^ 52 + m
    let k := 926 - max e 1
    s * 2 ^ 31 + rne S k

/-- `Number.isInteger` on a binary64 bit pattern, except that `-0` is
reported as non-integral: the embedding keeps `-0` in bit-pattern form so
that its sign bit (observable through `setFloat64`) is not lost. -/

def f64IsIntegral (b : Nat) : Bool :=
  let e := b / 2 ^ 52 % 2 ^ 11
  let m := b % 2 ^ 52
  if e = 2047 then false
  else if b % 2 ^ 63 = 0 then b = 0
  else if e ≥ 1075 then true
  else if e < 1023 then false
  else m % 2 ^ (1075 - e) = 0

/-- The exact integer value of an integral binary64 bit pattern
(garbage on non-integral patterns, which never reach it). -/

def f64ToIntVal (b : Nat) : Int :=
  let s := b / 2 ^ 63 % 2
  let e := b / 2 ^ 52 % 2 ^ 11
  let m := b % 2 ^ 52
  if e < 1023 then 0
  else
    let mag : Nat :=
      if e ≥ 1075 then (2 ^ 52 + m) * 2 ^ (e - 1075)
      else (2 ^ 52 + m) / 2 ^ (1075 - e)
    if s = 1 then -(mag : Int) else (mag : Int)

/-- The binary64 bit pattern of an integer value (exact for `|n| < 2^53`,
round-to-nearest-even beyond — the conversion JS performs whenever an
integral number is stored through `setFloat64`). -/

def intToF64Bits (n : Int) : Nat :=
  if n = 0 then 0
  else
    let s : Nat := if n < 0 then 1 else 0
    let a := n.natAbs
    let L := natLog2 a
    if L ≤ 52 then s * 2 ^ 63 + (1023 + L) * 2 ^ 52 + (a - 2 ^ L) * 2 ^ (52 - L)
    else
      let c := rne a (L - 52)
      let c' := if c = 2 ^ 53 then 2 ^ 52 else c
      let L' := if c = 2 ^ 53 then L + 1 else L
      if 1023 + L' ≥ 2047 then s * 2 ^ 63 + 2047 * 2 ^ 52
      else s * 2 ^ 63 + (1023 + L') * 2 ^ 52 + (c' - 2 ^ 52)

/-- Is the binary64 bit pattern a NaN? -/

def f64IsNaN (b : Nat) : Bool :=
  b / 2 ^ 52 % 2 ^ 11 = 2047 && b % 2 ^ 52 ≠ 0

/-! ## Runtime values

A JSON-like value tree, as handled by the codec.  The embedding of a JS
number is `vInt n` when its value is an integer other than `-0`, and
`vF64 bits` (its binary64 bit pattern) otherwise; `decode` re-canonicalises
every number it reads through `mkF64Value`, mirroring the fact that in JS a
read-back integral double *is* an integer. -/

inductive Value where
  | vInt (n : Int)
  | vF64 (bits : Nat)
  | vBool (b : Bool)
  | vStr (s : String)
  | vNull
  | vObj (fields : List (String × Value))
  | anyParsed (s : String)
  deriving Repr

/-- Canonicalise a binary64 bit pattern into the embedding's number form. -/

def mkF64Value (b : Nat) : Value :=
  if f64IsIntegral b then .vInt (f64ToIntVal b) else .vF64 b

/-- The binary64 bit pattern of a JS number in either embedding form.
(On non-numbers it returns `+0`; the codec only applies it to values the
validator has already confirmed to be numbers.) -/

def numBits : Value → Nat
  | .vInt n => intToF64Bits n
  | .vF64 b => b
  | _ => 0

/-- JS truthiness, as used by `val ? 1 : 0` in the bool encoder.  (Validated
values reaching that expression are always booleans; the other cases are
given their real JS truthiness for totality.) -/

def jsTruthy : Value → Bool
  | .vBool b => b
  | .vInt n => n ≠ 0
  | .vF64 b => !(b = 0 || b = 2 ^ 63 || f64IsNaN b)
  | .vStr s => s ≠ ""
  | .vNull => false
  | .vObj _ => true
  | .anyParsed _ => true

/-! ## UTF-8 (`TextEncoder` / `TextDecoder`) -/

/-- The UTF-8 bytes of one Unicode scalar value (`TextEncoder`). -/

def utf8EncodeChar (c : Char) : List Nat :=
  let v := c.toNat
  if v < 0x80 then [v]
  else if v < 0x800 then [0xC0 + v / 64, 0x80 + v % 64]
  else if v < 0x10000 then [0xE0 + v / 4096, 0x80 + v / 64 % 64, 0x80 + v % 64]
  else [0xF0 + v / 262144, 0x80 + v / 4096 % 64, 0x80 + v / 64 % 64, 0x80 + v % 64]

/-- `new TextEncoder().encode(s)`. -/

def utf8Encode (s : String) : List Nat := s.data.flatMap utf8EncodeChar

/-- The replacement character `U+FFFD` produced by `TextDecoder` for
malformed input. -/

def replChar : Char := Char.ofNat 0xFFFD

def utf8IsCont (b : Nat) : Bool := 0x80 ≤ b && b < 0xC0

/-- `new TextDecoder().decode(bytes)` as a byte-at-a-time state machine:
`need` counts the continuation bytes still expected and `acc` holds the
partial scalar value.  Exact on well-formed UTF-8 (in particular on
everything `utf8Encode` produces); malformed sequences become replacement
characters by a slightly coarser rule than WHATWG's (the claims never
inspect the decoded value of malformed input, only that decoding is total
and never throws). -/

def utf8DecodeSM : Nat → Nat → List Nat → List Char
  | need, _, [] => if need = 0 then [] else [replChar]
  | need, acc, b :: bs =>
      if need = 0 then
        if b < 0x80 then Char.ofNat b :: utf8DecodeSM 0 0 bs
        else if b < 0xC0 then replChar :: utf8DecodeSM 0 0 bs
        else if b < 0xE0 then utf8DecodeSM 1 (b - 0xC0) bs
        else if b < 0xF0 then utf8DecodeSM 2 (b - 0xE0) bs
        else if b < 0xF8 then utf8DecodeSM 3 (b - 0xF0) bs
        else replChar :: utf8DecodeSM 0 0 bs
      else if utf8IsCont b then
        if need = 1 then Char.ofNat (acc * 64 + (b - 0x80)) :: utf8DecodeSM 0 0 bs
        else utf8DecodeSM (need - 1) (acc * 64 + (b - 0x80)) bs
      else replChar :: utf8DecodeSM 0 0 bs

def utf8Decode (bytes : List Nat) : List Char := utf8DecodeSM 0 0 bytes

/-! ## Association lists with JS object semantics

`obj[k] = v` overwrites an existing key in place and otherwise appends;
property reads return the first (unique) match. -/

def alGet {κ α : Type} [DecidableEq κ] : List (κ × α) → κ → Option α
  | [], _ => none
  | (k, v) :: rest, key => if k = key then some v else alGet rest key

def alSet {κ α : Type} [DecidableEq κ] : List (κ × α) → κ → α → List (κ × α)
  | [], key, v => [(key, v)]
  | (k, w) :: rest, key, v =>
      if k = key then (k, v) :: rest else (k, w) :: alSet rest key v

/-! ## The schema data model (`MiniStruct`) -/

/-- A compiled enum: the two overwrite-on-assign maps built by
`parseEnumBody`. -/

structure EnumDef where
  nameToVal : List (String × Nat)
  valToName : List (Nat × String)
  deriving Repr, DecidableEq

/-- A field's declared type: either the object form
`{ prim: 'int', name, range }` produced for integer keywords, or the raw
type token string. -/

inductive FieldType where
  | intType (name : String) (range : Option (Int × Int))
  | tok (t : String)
  deriving Repr, DecidableEq

/-- One parsed field declaration (`field.default` is the raw, unparsed

default literal). -/

structure Field where
  type : FieldType
  name : String
  dflt : Option String
  deriving Repr, DecidableEq

structure StructDef where
  fields : List Field
  localEnums : List (String × EnumDef)
  deriving Repr, DecidableEq

structure SchemaDocument where
  structs : List (String × StructDef)
  enums : List (String × EnumDef)
  deriving Repr, DecidableEq

/-- `MiniStruct.INT_TYPES`. -/

structure IntInfo where
  signed : Bool
  bits : Nat
  deriving Repr, DecidableEq

def INT_TYPES : List (String × IntInfo) :=
  [("int8", ⟨true, 8⟩), ("uint8", ⟨false, 8⟩),
   ("int16", ⟨true, 16⟩), ("uint16", ⟨false, 16⟩),
   ("int32", ⟨true, 32⟩), ("uint32", ⟨false, 32⟩),
   ("int", ⟨true, 32⟩)]

/-- `MiniStruct.intrinsicBoundsForInt`. -/

def intrinsicBoundsForInt (typeName : String) : Option (Int × Int) :=
  (alGet INT_TYPES typeName).map fun info =>
    if info.signed then (-(2 ^ (info.bits - 1) : Int), (2 ^ (info.bits - 1) : Int) - 1)
    else (0, (2 ^ info.bits : Int) - 1)

/-- `MiniStruct.validateRangeAgainstIntrinsic` (`throw` becomes `.error`). -/

def validateRangeAgainstIntrinsic (typeName : String) (rangeMin rangeMax : Int) :
    Except String Unit :=
  match intrinsicBoundsForInt typeName with
  | none => .ok ()
  | some (iMin, iMax) =>
      if rangeMin < iMin || rangeMax > iMax then
        .error ("Schema error: range [" ++ toString rangeMin ++ "," ++ toString rangeMax ++
          "] outside intrinsic bounds of " ++ typeName ++
          " (" ++ toString iMin ++ ".." ++ toString iMax ++ ")")
      else .ok ()

/-! ## Schema text parsing (`parseSchema` / `parseStructBody` / `parseEnumBody`)

All scanning follows the JS source: `indexOf`-driven struct extraction with
hand-rolled brace matching, and the literal regexes
`/enum (\w+) \{([^}]*)\}/g` (note the mandatory single space before the
brace) and
`/^(int|uint8|int8|uint16|int16|uint32|int32|uint8|int)\s*(?:\[\s*([^,\]]+)\s*,\s*([^\]]+)\s*\])?$/`. -/

/-- The numeric value of a digit run (`parseInt(ds, 10)` on a `\d+` match). -/

def digitsToNat (ds : List Char) : Nat :=
  ds.foldl (fun a c => a * 10 + (c.toNat - 48)) 0

/-- `Number(s)` followed by the `Number.isInteger` test, for the range
literals captured by the integer-type regex: whitespace-trimmed optionally
signed decimal integer literals evaluate to their value, the empty (or
all-whitespace) string to `0`, everything else to `none` (= `NaN` or a
non-integer).  Number forms that denote integers through other syntax
(exponents, hex, a trailing `.0`, literals above 2^53) are outside the
modelled fragment — the schemas in this development use none of them. -/

def jsNumberInt (cs : List Char) : Option Int :=
  let t := jsTrim cs
  match t with
  | [] => some 0
  | '-' :: ds => if ds ≠ [] && ds.all jsIsDigit then some (-(digitsToNat ds : Int)) else none
  | '+' :: ds => if ds ≠ [] && ds.all jsIsDigit then some ((digitsToNat ds : Int)) else none
  | ds => if ds.all jsIsDigit then some ((digitsToNat ds : Int)) else none

/-- `parseEnumBody`: split on `;`, then for each part apply the regex
`(\w+)(?:\s*=\s*(\d+))?` — i.e. take the first maximal word-character run as
the member name and, when it is directly followed (modulo whitespace) by
`=` and at least one digit, the digit run as its explicit value; otherwise
the running counter.  Both maps are overwrite-on-assign. -/

def parseEnumBodyGo : List (List Char) → Nat → EnumDef → EnumDef
  | [], _, acc => acc
  | part :: rest, counter, acc =>
      let p := jsTrim part
      if p = [] then parseEnumBodyGo rest counter acc
      else
        let afterJunk := p.dropWhile (fun c => !jsIsWord c)
        match afterJunk with
        | [] => parseEnumBodyGo rest counter acc
        | _ :: _ =>
            let key := String.mk (afterJunk.takeWhile jsIsWord)
            let afterKey := (afterJunk.dropWhile jsIsWord).dropWhile jsIsSpace
            let explicitVal : Option Nat :=
              match afterKey with
              | '=' :: t =>
                  let ds := (t.dropWhile jsIsSpace).takeWhile jsIsDigit
                  if ds = [] then none else some (digitsToNat ds)
              | _ => none
            let val := explicitVal.getD counter
            parseEnumBodyGo rest (val + 1)
              ⟨alSet acc.nameToVal key val, alSet acc.valToName val key⟩

def parseEnumBody (body : List Char) : EnumDef :=
  parseEnumBodyGo (jsSplitOn ';' body) 0 ⟨[], []⟩

/-- Try to match `/enum (\w+) \{([^}]*)\}/` at the very start of `cs`;
on success return the enum name, its body and the text after the closing
brace. -/

def tryEnumAt (cs : List Char) : Option (String × List Char × List Char) :=
  match cs with
  | 'e' :: 'n' :: 'u' :: 'm' :: ' ' :: rest =>
      let nm := rest.takeWhile jsIsWord
      if nm = [] then none
      else
        match rest.dropWhile jsIsWord with
        | ' ' :: c :: t =>
            if c = lbrace then
              let ebody := t.takeWhile (fun x => x ≠ rbrace)
              match t.dropWhile (fun x => x ≠ rbrace) with
              | r :: t' => if r = rbrace then some (String.mk nm, ebody, t') else none
              | [] => none
            else none
        | _ => none
  | _ => none

/-- One left-to-right scan collecting every (non-overlapping, leftmost)
match of the enum regex and simultaneously deleting the matched spans —
the union of the `exec` loop and the `replace(..., "")` call, which walk
the string the same way. -/

def enumScanGo : Nat → List Char → List (String × List Char) × List Char
  | 0, cs => ([], cs)
  | _ + 1, [] => ([], [])
  | fuel + 1, c :: cs =>
      match tryEnumAt (c :: cs) with
      | some (nm, ebody, rest) =>
          let (ms, strip) := enumScanGo fuel rest
          ((nm, ebody) :: ms, strip)
      | none =>
          let (ms, strip) := enumScanGo fuel cs
          (ms, c :: strip)

def enumScan (cs : List Char) : List (String × List Char) × List Char :=
  enumScanGo (cs.length + 1) cs

/-- One alternative of the integer-type regex: does `kw` followed by
`\s*(?:\[\s*([^,\]]+)\s*,\s*([^\]]+)\s*\])?$` match `tok`?  Returns the two
range captures when the bracket group matched.  (The capture groups are
reproduced up to leading whitespace, which `Number` strips again.) -/

def tryIntKw (kw : List Char) (tok : List Char) : Option (Option (List Char × List Char)) :=
  if charsPrefix kw tok then
    let rest := (tok.drop kw.length).dropWhile jsIsSpace
    match rest with
    | [] => some none
    | c :: t =>
        if c = '[' then
          let cap1 := t.takeWhile (fun x => !(x = ',' || x = ']'))
          match t.dropWhile (fun x => !(x = ',' || x = ']')) with
          | ',' :: t2 =>
              if cap1 = [] then none
              else
                let cap2 := t2.takeWhile (fun x => x ≠ ']')
                match t2.dropWhile (fun x => x ≠ ']') with
                | ']' :: t4 =>
                    if cap2 = [] then none
                    else if t4 = [] then some (some (cap1, cap2)) else none
                | _ => none
          | _ => none
        else none
  else none

/-- The ordered alternation of the integer-type regex (the source lists
`uint8` and `int` twice; the duplicates are unreachable and kept only to
mirror the regex). -/

def intKwAlternation : List String :=
  ["int", "uint8", "int8", "uint16", "int16", "uint32", "int32", "uint8", "int"]

def parseIntTokenGo (tok : List Char) :
    List String → Option (String × Option (List Char × List Char))
  | [] => none
  | kw :: kws =>
      match tryIntKw kw.data tok with
      | some caps => some (kw, caps)
      | none => parseIntTokenGo tok kws

/-- `rawType.match(/^(int|uint8|...)\s*(?:\[...\])?$/)`. -/

def parseIntToken (tok : List Char) : Option (String × Option (List Char × List Char)) :=
  parseIntTokenGo tok intKwAlternation

/-- The integer-keyword branch of the field parser (source lines 154-168):
given the keyword and the raw range captures, build the
`{ prim: 'int', name, range }` type object, checking the captures parse to
integers and the range fits the keyword's intrinsic bounds. -/

def mkIntFieldType (structName fieldName : String) (name : String)
    (caps : Option (List Char × List Char)) (rawType : List Char) :
    Except String FieldType :=
  match caps with
  | none => .ok (.intType name none)
  | some (a, b) =>
      match jsNumberInt a, jsNumberInt b with
      | some rmin, some rmax =>
          match validateRangeAgainstIntrinsic name rmin rmax with
          | .error e => .error (e ++ " (field " ++ structName ++ "." ++ fieldName ++ ")")
          | .ok _ => .ok (.intType name (some (rmin, rmax)))
      | _, _ =>
          .error ("Schema parse error: invalid integer range for " ++ String.mk rawType)

/-- Parse the field declarations of a struct body (after inline-enum
removal): split on `;`, then per part split off a `:`-default, tokenize on
whitespace, skip parts with fewer than two tokens, and resolve the type
token. -/

def parseFieldsGo (structName : String) (localEnums : List (String × EnumDef)) :
    List (List Char) → Except String (List Field)
  | [] => .ok []
  | part :: rest =>
      let p := jsTrim part
      if p = [] then parseFieldsGo structName localEnums rest
      else
        let segs := (jsSplitOn ':' p).map jsTrim
        let decl := segs.headD []
        let defVal : Option String := (segs.drop 1).head?.map String.mk
        if decl = [] then parseFieldsGo structName localEnums rest
        else
          match jsWords decl with
          | rawType :: nameTok :: _ => do
              let fieldName := String.mk nameTok
              let ftype : FieldType ←
                match parseIntToken rawType with
                | some (kwName, caps) =>
                    mkIntFieldType structName fieldName kwName caps rawType
                | none => pure (.tok (String.mk rawType))
              let fs ← parseFieldsGo structName localEnums rest
              pure (⟨ftype, fieldName, defVal⟩ :: fs)
          | _ => parseFieldsGo structName localEnums rest

/-- `parseStructBody`: extract and strip the inline enums, then parse the
remaining `;`-separated field declarations. -/

def parseStructBody (body : List Char) (structName : String) :
    Except String StructDef := do
  let (ems, bodyClean) := enumScan body
  let localEnums := ems.foldl (fun acc (m : String × List Char) =>
    alSet acc m.1 (parseEnumBody m.2)) []
  let fields ← parseFieldsGo structName localEnums (jsSplitOn ';' bodyClean)
  pure ⟨fields, localEnums⟩

/-- Strip `//` line comments (`schema.replace(/\/\/.*$/gm, "")`): the
newline itself stays. -/

def stripCommentsGo : Bool → List Char → List Char
  | _, [] => []
  | true, c :: cs =>
      if c = '\n' then c :: stripCommentsGo false cs else stripCommentsGo true cs
  | false, '/' :: '/' :: cs' => stripCommentsGo true cs'
  | false, c :: cs => c :: stripCommentsGo false cs

/-- Scan from the opening brace for the matching closing brace, tracking
depth; `none` when the braces are unbalanced. -/

def findMatchingBraceGo : List Char → Nat → Nat → Option Nat
  | [], _, _ => none
  | c :: cs, depth, pos =>
      if c = lbrace then findMatchingBraceGo cs (depth + 1) (pos + 1)
      else if c = rbrace then
        if depth = 1 then some pos else findMatchingBraceGo cs (depth - 1) (pos + 1)
      else findMatchingBraceGo cs depth (pos + 1)

def findMatchingBrace (cs : List Char) (braceIndex : Nat) : Option Nat :=
  findMatchingBraceGo (cs.drop braceIndex) 0 braceIndex

/-- The struct-extraction loop of `parseSchema`: find `struct `, find the
next `{`, take the first whitespace-token before it as the name, match
braces, parse the body, blank the consumed span with spaces and continue
after `sIndex`.  Malformed or unbalanced input `break`s out silently. -/

def parseSchemaGo : Nat → List Char → Nat → List (String × StructDef) →
    Except String (List (String × StructDef) × List Char)
  | 0, schema, _, structs => .ok (structs, schema)
  | fuel + 1, schema, i, structs =>
      match jsIndexOfFrom schema "struct ".data i with
      | none => .ok (structs, schema)
      | some sIndex =>
          let nameStart := sIndex + 7
          match jsIndexOfFrom schema [lbrace] nameStart with
          | none => .ok (structs, schema)
          | some braceIndex =>
              let name := String.mk
                ((jsWords (jsTrim (jsSliceChars schema nameStart braceIndex))).headD [])
              match findMatchingBrace schema braceIndex with
              | none => .ok (structs, schema)
              | some j =>
                  let body := jsSliceChars schema (braceIndex + 1) j
                  match parseStructBody body name with
                  | .error e => .error e
                  | .ok sd =>
                      let schema' := schema.take sIndex ++
                        List.replicate (j - sIndex + 1) ' ' ++ schema.drop (j + 1)
                      parseSchemaGo fuel schema' (sIndex + 1) (alSet structs name sd)

/-- `parseSchema` (the `MiniStruct` constructor): strip comments, extract
every struct, then collect the remaining global enums. -/

def parseSchema (text : String) : Except String SchemaDocument := do
  let cs := stripCommentsGo false text.data
  let (structs, rest) ← parseSchemaGo (cs.length + 2) cs 0 []
  let (ems, _) := enumScan rest
  let enums := ems.foldl (fun acc (m : String × List Char) =>
    alSet acc m.1 (parseEnumBody m.2)) []
  pure ⟨structs, enums⟩

/-! ## Byte buffers

Wire buffers are `List Nat` with every entry < 256 (`Uint8Array`).  Read
positions are `Int`: a corrupt varint length can drive the cursor negative,
and the JS code then indexes the typed array with a negative number, which
yields `undefined` (modelled as the byte 0 in the coercion contexts where
the source consumes it). -/

/-- `buf[pos]` where an out-of-range read yields `undefined`, which every
consuming context of the source coerces like 0 (`undefined & x` is 0,
`!!undefined` is `false`). -/

def bufGet (buf : List Nat) (pos : Int) : Nat :=
  if pos < 0 then 0 else buf.getD pos.toNat 0

/-- Clamp a (possibly negative, from-the-end) slice index into `[0, len]`,
as `TypedArray.prototype.slice` does. -/

def jsClampIndex (len : Nat) (i : Int) : Nat :=
  (if i < 0 then max ((len : Int) + i) 0 else min i len).toNat

/-- `TypedArray.prototype.slice(a, b)` with the full negative-index
semantics (when the clamped start is at or past the clamped end the result
is empty, which `drop`-after-`take` yields by itself). -/

def jsSliceBytes (buf : List Nat) (a b : Int) : List Nat :=
  (buf.take (jsClampIndex buf.length b)).drop (jsClampIndex buf.length a)

/-! ## Varints (`encodeVarint` / `decodeVarint`) -/

/-- The tail of the `encodeVarint` loop after the first `num >>>= 7`: from
then on the accumulator is a plain natural below 2^25, so the bitwise ops
are ordinary arithmetic.  Structural fuel (40 ≫ the ≤ 4 possible
iterations) keeps it kernel-evaluable. -/

def encodeVarintNatGo : Nat → Nat → List Nat
  | 0, n => [n]
  | fuel + 1, n =>
      if n > 127 then (n % 128 + 128) :: encodeVarintNatGo fuel (n / 128) else [n]

/-- `encodeVarint` followed by the per-element `ToUint8` of
`Uint8Array.from`: `(num & 0x7f) | 0x80` is the low 7 bits of the 32-bit
pattern of `num` with the high bit set, and `num >>>= 7` is
`ToUint32(num) / 128`. -/

def encodeVarint (num : Int) : List Nat :=
  if num > 127 then
    (toUint32 num % 128 + 128) :: encodeVarintNatGo 40 (toUint32 num / 128)
  else [toUint8 num]

/-- The `decodeVarint` loop: `num |= (b & 0x7f) << shift` with full JS
int32 semantics (so 5-byte varints reaching bit 31 go negative, exactly as
in the engine).  A read past either end of the buffer yields `undefined`,
whose `& 0x80` is 0, so the loop always stops there. -/

def decodeVarintGo : Nat → List Nat → Int → Int → Nat → Int × Int
  | 0, _, pos, num, _ => (num, pos)
  | fuel + 1, buf, pos, num, shift =>
      let b := bufGet buf pos
      let num' := jsOr num (jsShl ((Nat.land b 0x7f : Nat) : Int) shift)
      if Nat.land b 0x80 = 0 then (num', pos + 1)
      else decodeVarintGo fuel buf (pos + 1) num' (shift + 7)

def decodeVarint (buf : List Nat) (offset : Int) : Int × Int :=
  decodeVarintGo (buf.length + 1) buf offset 0 0

/-! ## Fixed-width integers and floats -/

/-- `writeFixedInt`: little-endian two's-complement of the given width
(`DataView.setInt*`/`setUint*` both store `value mod 2^bits`).  The widths
reaching it are always 8, 16 or 32 (the `Unsupported integer width` throw
of the source is unreachable from `INT_TYPES`). -/

def writeFixedInt (value : Int) (bits : Nat) : List Nat :=
  leBytes (bits / 8) (value % 2 ^ bits).toNat

/-- `readFixedInt`: constructing the width-`byteLen` `DataView` throws a
`RangeError` when the window does not fit the buffer; otherwise read the
little-endian bytes and reinterpret the top bit when signed. -/

def readFixedInt (buf : List Nat) (pos : Int) (bits : Nat) (signed : Bool) :
    Except String (Int × Int) :=
  let byteLen : Int := (bits / 8 : Nat)
  if pos < 0 ∨ pos + byteLen > (buf.length : Int) then .error "RangeError"
  else
    let raw := fromLeBytes ((buf.drop pos.toNat).take (bits / 8))
    let v : Int := if signed = true ∧ 2 ^ (bits - 1) ≤ raw then
        (raw : Int) - 2 ^ bits else (raw : Int)
    .ok (v, pos + byteLen)

/-- `writeFloat64` on the argument's binary64 bit pattern. -/

def writeFloat64 (bits64 : Nat) : List Nat := leBytes 8 bits64

/-- `writeFloat32`: `setFloat32` first narrows the number to binary32. -/

def writeFloat32 (bits64 : Nat) : List Nat := leBytes 4 (f64ToF32 bits64)

/-- `readFloat64` (DataView window check as in `readFixedInt`); the number
read back is re-canonicalised into the embedding (an integral double *is*
an integer in JS). -/

def readFloat64 (buf : List Nat) (pos : Int) : Except String (Value × Int) :=
  if pos < 0 ∨ pos + 8 > (buf.length : Int) then .error "RangeError"
  else .ok (mkF64Value (fromLeBytes ((buf.drop pos.toNat).take 8)), pos + 8)

/-- `readFloat32`: 4 bytes, widened exactly to binary64 by `getFloat32`. -/

def readFloat32 (buf : List Nat) (pos : Int) : Except String (Value × Int) :=
  if pos < 0 ∨ pos + 4 > (buf.length : Int) then .error "RangeError"
  else .ok (mkF64Value (f32ToF64 (fromLeBytes ((buf.drop pos.toNat).take 4))), pos + 4)

/-! ## `JSON.stringify` and display helpers

Only the `any` encoder consumes `jsStringify`, and no claim observes the
bytes of an `any` field; the rendering of non-integral doubles (a
shortest-round-trip decimal algorithm) is therefore left out of the modelled
fragment and marked as such. -/

def jsStringifyStringBody (cs : List Char) : String :=
  String.mk (cs.flatMap fun c =>
    if c = '"' then ['\\', '"']
    else if c = '\\' then ['\\', '\\']
    else if c = '\n' then ['\\', 'n']
    else if c = '\r' then ['\\', 'r']
    else if c = '\t' then ['\\', 't']
    else [c])

mutual

/-- `JSON.stringify` (finite doubles other than integers are outside the
modelled fragment and rendered as `0`; `NaN`/infinities faithfully become
`null`). -/

def jsStringify : Value → String
  | .vInt n => toString n
  | .vF64 b =>
      if f64IsNaN b || b % 2 ^ 63 = 0x7FF0000000000000 then "null" else "0"
  | .vBool b => if b then "true" else "false"
  | .vStr s => "\"" ++ jsStringifyStringBody s.data ++ "\""
  | .vNull => "null"
  | .vObj fields =>
      String.mk [lbrace] ++ jsStringifyFields fields ++ String.mk [rbrace]
  | .anyParsed s => s

def jsStringifyFields : List (String × Value) → String
  | [] => ""
  | [(k, v)] => "\"" ++ jsStringifyStringBody k.data ++ "\":" ++ jsStringify v
  | (k, v) :: rest =>
      "\"" ++ jsStringifyStringBody k.data ++ "\":" ++ jsStringify v ++ "," ++
        jsStringifyFields rest

end

/-- `typeof value`, for the validator's error messages. -/

def jsTypeof : Value → String
  | .vInt _ => "number"
  | .vF64 _ => "number"
  | .vBool _ => "boolean"
  | .vStr _ => "string"
  | .vNull => "object"
  | .vObj _ => "object"
  | .anyParsed _ => "object"

/-- `Object.keys(m).join(', ')`. -/

def joinKeys : List (String × Nat) → String
  | [] => ""
  | [(k, _)] => k
  | (k, _) :: rest => k ++ ", " ++ joinKeys rest

def joinKeysN : List (Nat × String) → String
  | [] => ""
  | [(k, _)] => toString k
  | (k, _) :: rest => toString k ++ ", " ++ joinKeysN rest

/-! ## Validator (`validateValueForField`) -/

/-- The enum-membership part of the validator: a string must be a declared
name, a number a declared value; anything else is a type violation. -/

def validateEnumValue (e : EnumDef) (tname : String) (value : Value) (path : String) :
    Except String Unit :=
  match value with
  | .vStr s =>
      if (alGet e.nameToVal s).isNone then
        .error ("Type violation at \"" ++ path ++ "\": Expected enum " ++ tname ++
          " one of [" ++ joinKeys e.nameToVal ++ "], got " ++ jsStringify value)
      else .ok ()
  | .vInt n =>
      if n < 0 || (alGet e.valToName n.toNat).isNone then
        .error ("Type violation at \"" ++ path ++ "\": Expected enum " ++ tname ++
          " numeric value one of [" ++ joinKeysN e.valToName ++ "], got " ++ toString n)
      else .ok ()
  | .vF64 _ =>
      -- a non-integral number is never a property key of the value table
      .error ("Type violation at \"" ++ path ++ "\": Expected enum " ++ tname ++
        " numeric value one of [" ++ joinKeysN e.valToName ++ "], got " ++ jsStringify value)
  | _ =>
      .error ("Type violation at \"" ++ path ++ "\": Expected enum " ++ tname ++
        ", got " ++ jsTypeof value ++ " (" ++ jsStringify value ++ ")")

/-- `validateValueForField` (source lines 180-253): the descriptive,
path-aware validation run by `encode` on every effective field value. -/

def validateValueForField (doc : SchemaDocument) (fieldType : FieldType)
    (value : Value) (path : String) (localEnums : List (String × EnumDef)) :
    Except String Unit :=
  match fieldType with
  | .intType name rng =>
      match value with
      | .vInt n =>
          match rng with
          | some (rmin, rmax) =>
              if n < rmin || n > rmax then
                .error ("Type violation at \"" ++ path ++ "\": integer " ++ toString n ++
                  " outside declared range [" ++ toString rmin ++ "," ++ toString rmax ++ "]")
              else .ok ()
          | none =>
              match intrinsicBoundsForInt name with
              | some (iMin, iMax) =>
                  if n < iMin || n > iMax then
                    .error ("Type violation at \"" ++ path ++ "\": integer " ++ toString n ++
                      " outside intrinsic bounds of " ++ name ++
                      " (" ++ toString iMin ++ ".." ++ toString iMax ++ ")")
                  else .ok ()
              | none => .ok ()
      | _ =>
          .error ("Type violation at \"" ++ path ++ "\": Expected integer (" ++ name ++
            "), got " ++ jsTypeof value ++ " (" ++ jsStringify value ++ ")")
  | .tok t =>
      if t = "int" then
        match value with
        | .vInt _ => .ok ()
        | _ => .error ("Type violation at \"" ++ path ++ "\": Expected integer, got " ++
            jsTypeof value ++ " (" ++ jsStringify value ++ ")")
      else if t = "float" || t = "float32" || t = "float64" then
        match value with
        | .vInt _ => .ok ()
        | .vF64 _ => .ok ()
        | _ => .error ("Type violation at \"" ++ path ++ "\": Expected float, got " ++
            jsTypeof value ++ " (" ++ jsStringify value ++ ")")
      else if t = "bool" then
        match value with
        | .vBool _ => .ok ()
        | _ => .error ("Type violation at \"" ++ path ++ "\": Expected bool, got " ++
            jsTypeof value ++ " (" ++ jsStringify value ++ ")")
      else if t = "string" then
        match value with
        | .vStr _ => .ok ()
        | _ => .error ("Type violation at \"" ++ path ++ "\": Expected string, got " ++
            jsTypeof value ++ " (" ++ jsStringify value ++ ")")
      else if t = "any" then .ok ()
      else
        match alGet localEnums t with
        | some e => validateEnumValue e t value path
        | none =>
            match alGet doc.enums t with
            | some e => validateEnumValue e t value path
            | none =>
                match alGet doc.structs t with
                | some _ =>
                    match value with
                    | .vObj _ => .ok ()
                    | _ => .error ("Type violation at \"" ++ path ++ "\": Expected struct " ++
                        t ++ ", got " ++ jsTypeof value ++ " (" ++ jsStringify value ++ ")")
                | none => .error ("Unknown type: " ++ t ++ " at " ++ path)

/-! ## Encoder -/

/-- `obj[field.name] ?? field.default`: both `undefined` (absent) and
`null` fall through to the raw default literal, which is carried through
unparsed as a string. -/

def effectiveVal (obj : List (String × Value)) (field : Field) : Option Value :=
  match alGet obj field.name with
  | some .vNull => field.dflt.map .vStr
  | some v => some v
  | none => field.dflt.map .vStr

/-- The string content of a validated string value (other constructors
cannot reach the string encoder past validation). -/

def strVal : Value → String
  | .vStr s => s
  | _ => ""

/-- The members of a validated struct value. -/

def objFields : Value → List (String × Value)
  | .vObj fs => fs
  | _ => []

/-- The integer content of a validated integer value. -/

def valAsInt : Value → Int
  | .vInt n => n
  | _ => 0

/-- `struct.localEnums[t] || this.enums[t]`. -/

def resolveEnum (doc : SchemaDocument) (st : StructDef) (t : String) : Option EnumDef :=
  match alGet st.localEnums t with
  | some e => some e
  | none => alGet doc.enums t

/-- The per-field chunk of `encode` (the body of its `for` loop after
validation), parameterised by the recursive call used for nested structs.
An unknown type token falls off the end of the `if`/`else` chain and
contributes no bytes (unreachable after validation, which throws first). -/

def encodeFieldValue (recurse : String → List (String × Value) → Except String (List Nat))
    (doc : SchemaDocument) (st : StructDef) (field : Field) (val : Value) :
    Except String (List Nat) :=
  match field.type with
  | .intType name rng => do
      match rng, val with
      | some (rmin, rmax), .vInt n =>
          if n < rmin || n > rmax then
            throw ("Value for " ++ field.name ++ " out of declared range " ++
              toString rmin ++ ".." ++ toString rmax)
          else pure ()
      | _, _ => pure ()
      -- `INT_TYPES[typeName] || INT_TYPES['int']` is always a record, so the
      -- `else` varint fallback of the source is unreachable
      let info := (alGet INT_TYPES name).getD ⟨true, 32⟩
      pure (writeFixedInt (valAsInt val) info.bits)
  | .tok t =>
      if t = "int" then
        let info := (alGet INT_TYPES "int").getD ⟨true, 32⟩
        pure (writeFixedInt (valAsInt val) info.bits)
      else if t = "string" then
        let enc := utf8Encode (strVal val)
        pure (encodeVarint (enc.length : Int) ++ enc)
      else if t = "any" then
        let enc := utf8Encode (jsStringify val)
        pure (encodeVarint (enc.length : Int) ++ enc)
      else if t = "bool" then
        pure [if jsTruthy val then 1 else 0]
      else if t = "float" || t = "float64" then
        pure (writeFloat64 (numBits val))
      else if t = "float32" then
        pure (writeFloat32 (numBits val))
      else
        match resolveEnum doc st t with
        | some e => pure (encodeVarint (enumCodeOf e val))
        | none =>
            match alGet doc.structs t with
            | some _ => do
                let enc ← recurse t (objFields val)
                pure (encodeVarint (enc.length : Int) ++ enc)
            | none => pure []
where
  /-- `typeof val === "string" ? e.nameToVal[val] : val`; a missing name
  yields `undefined`, which `encodeVarint` + `Uint8Array.from` turn into the
  byte 0 (unreachable past validation). -/
  enumCodeOf (e : EnumDef) : Value → Int
    | .vStr s => (((alGet e.nameToVal s).map Int.ofNat).getD 0)
    | .vInt n => n
    | _ => 0

/-- One iteration of the `encode` field loop: compute the effective value,
skip the field entirely when there is none, otherwise validate and append
the field's chunk. -/

def encodeFieldStep (recurse : String → List (String × Value) → Except String (List Nat))
    (doc : SchemaDocument) (st : StructDef) (typeName : String)
    (obj : List (String × Value)) (acc : Except String (List Nat)) (field : Field) :
    Except String (List Nat) := do
  let bytes ← acc
  match effectiveVal obj field with
  | none => pure bytes
  | some val => do
      validateValueForField doc field.type val
        (typeName ++ "." ++ field.name) st.localEnums
      let chunk ← encodeFieldValue recurse doc st field val
      pure (bytes ++ chunk)

/-- The field loop of `encode`. -/

def encodeFields (recurse : String → List (String × Value) → Except String (List Nat))
    (doc : SchemaDocument) (st : StructDef) (typeName : String)
    (fields : List Field) (obj : List (String × Value)) : Except String (List Nat) :=
  fields.foldl (encodeFieldStep recurse doc st typeName obj) (.ok [])

/-- `encode` (fuel counts call-stack depth through nested structs; the JS
engine's stack limit plays the same role). -/

def encodeGo (doc : SchemaDocument) : Nat → String → List (String × Value) →
    Except String (List Nat)
  | 0, _, _ => .error "RangeError: Maximum call stack size exceeded"
  | fuel + 1, typeName, obj =>
      match alGet doc.structs typeName with
      | none => .error ("Unknown struct: " ++ typeName)
      | some st =>
          encodeFields (fun tn o => encodeGo doc fuel tn o) doc st typeName
            st.fields obj

def encode (doc : SchemaDocument) (typeName : String)
    (obj : List (String × Value)) (fuel : Nat := 100) : Except String (List Nat) :=
  encodeGo doc fuel typeName obj

/-! ## Decoder -/

/-- One iteration of the `decode` field loop, parameterised by the
recursive call used for nested structs.  The `if (pos >= buf.length)
break;` guard re-fires identically on every later field once it has fired
(the cursor never moves after it), so modelling `break` as a per-field
check is exact.  A field whose type token resolves to nothing is skipped
with the cursor unmoved. -/

def decodeFieldStep (recurse : String → List Nat → Int → Except String (List (String × Value)))
    (doc : SchemaDocument) (st : StructDef) (buf : List Nat)
    (acc : Except String (List (String × Value) × Int)) (field : Field) :
    Except String (List (String × Value) × Int) := do
  let (obj, pos) ← acc
  if pos ≥ (buf.length : Int) then pure (obj, pos)
  else
    match field.type with
    | .intType name _ =>
        let info := (alGet INT_TYPES name).getD ⟨true, 32⟩
        let (v, pos') ← readFixedInt buf pos info.bits info.signed
        pure (alSet obj field.name (.vInt v), pos')
    | .tok t =>
        if t = "int" then
          let info := (alGet INT_TYPES "int").getD ⟨true, 32⟩
          let (v, pos') ← readFixedInt buf pos info.bits info.signed
          pure (alSet obj field.name (.vInt v), pos')
        else if t = "string" then
          let (len, p2) := decodeVarint buf pos
          let s := String.mk (utf8Decode (jsSliceBytes buf p2 (p2 + len)))
          pure (alSet obj field.name (.vStr s), p2 + len)
        else if t = "any" then
          let (len, p2) := decodeVarint buf pos
          let s := String.mk (utf8Decode (jsSliceBytes buf p2 (p2 + len)))
          pure (alSet obj field.name (.anyParsed s), p2 + len)
        else if t = "bool" then
          pure (alSet obj field.name (.vBool (bufGet buf pos != 0)), pos + 1)
        else if t = "float" || t = "float64" then
          let (v, pos') ← readFloat64 buf pos
          pure (alSet obj field.name v, pos')
        else if t = "float32" then
          let (v, pos') ← readFloat32 buf pos
          pure (alSet obj field.name v, pos')
        else
          match resolveEnum doc st t with
          | some e => pure (decodeEnumAt e obj pos)
          | none =>
              match alGet doc.structs t with
              | some _ =>
                  let (len, p2) := decodeVarint buf pos
                  let inner ← recurse t (jsSliceBytes buf p2 (p2 + len)) 0
                  pure (alSet obj field.name (.vObj inner), p2 + len)
              | none => pure (obj, pos)
where
  /-- `obj[field.name] = e.valToName[num] ?? num` (a negative `num` is never
  a key of the value table). -/
  decodeEnumAt (e : EnumDef) (obj : List (String × Value)) (pos : Int) :
      List (String × Value) × Int :=
    let (num, p2) := decodeVarint buf pos
    let v := match (if 0 ≤ num then alGet e.valToName num.toNat else none) with
      | some nm => Value.vStr nm
      | none => Value.vInt num
    (alSet obj field.name v, p2)

/-- The field loop of `decode`, exposing the final cursor position. -/

def decodeFields (recurse : String → List Nat → Int → Except String (List (String × Value)))
    (doc : SchemaDocument) (st : StructDef) (fields : List Field)
    (buf : List Nat) (offset : Int) :
    Except String (List (String × Value) × Int) :=
  fields.foldl (decodeFieldStep recurse doc st buf) (.ok ([], offset))

/-- `decode` (the source returns only the object; the cursor is internal
state, exposed through `decodeFields` above). -/

def decodeGo (doc : SchemaDocument) : Nat → String → List Nat → Int →
    Except String (List (String × Value))
  | 0, _, _, _ => .error "RangeError: Maximum call stack size exceeded"
  | fuel + 1, typeName, buf, offset =>
      match alGet doc.structs typeName with
      | none => .error ("Unknown struct: " ++ typeName)
      | some st => do
          let (obj, _) ← decodeFields (fun tn b off => decodeGo doc fuel tn b off)
            doc st st.fields buf offset
          pure obj

def decode (doc : SchemaDocument) (typeName : String) (buf : List Nat)
    (offset : Int := 0) (fuel : Nat := 100) :
    Except String (List (String × Value)) :=
  decodeGo doc fuel typeName buf offset

/-! ## Round-trip support predicates

`valueOKFor` captures, as one decidable check, the conditions under which a
validated field value's wire image reads back as exactly the same value:
the validator's own acceptance plus the width/representability conditions
the wire format imposes (integers inside the written two's-complement
window, varint-carried quantities below `2^31`, floats exactly
representable at the stored width, enum names whose code maps back to the
same name).  `any` and nested-struct field values are outside this
predicate. -/

/-- Structural equality on the numeric fragment of `Value`. -/

def numValueEq : Value → Value → Bool
  | .vInt a, .vInt b => a == b
  | .vF64 a, .vF64 b => a == b
  | _, _ => false

/-- `INT_TYPES[typeName] || INT_TYPES['int']`, as resolved by the codec. -/

def intInfoFor (name : String) : IntInfo :=
  (alGet INT_TYPES name).getD ⟨true, 32⟩

/-- Does `n` fit the two's-complement window the codec writes for `info`? -/

def intFits (info : IntInfo) (n : Int) : Bool :=
  if info.signed then
    decide (-(2 ^ (info.bits - 1)) ≤ n ∧ n < 2 ^ (info.bits - 1))
  else decide (0 ≤ n ∧ n < 2 ^ info.bits)

def valueOKFor (doc : SchemaDocument) (st : StructDef) : FieldType → Value → Bool
  | .intType name rng, .vInt n =>
      intFits (intInfoFor name) n &&
      (match rng with
       | some (rmin, rmax) => decide (rmin ≤ n ∧ n ≤ rmax)
       | none =>
           match intrinsicBoundsForInt name with
           | some (iMin, iMax) => decide (iMin ≤ n ∧ n ≤ iMax)
           | none => true)
  | .intType _ _, _ => false
  | .tok t, v =>
      if t = "int" then
        match v with
        | .vInt n => intFits (intInfoFor "int") n
        | _ => false
      else if t = "string" then
        match v with
        | .vStr str => decide ((utf8Encode str).length < 2 ^ 31)
        | _ => false
      else if t = "any" then false
      else if t = "bool" then
        match v with
        | .vBool _ => true
        | _ => false
      else if t = "float" || t = "float64" then
        match v with
        | .vInt _ => decide (numBits v < 2 ^ 64) && numValueEq (mkF64Value (numBits v)) v
        | .vF64 _ => decide (numBits v < 2 ^ 64) && numValueEq (mkF64Value (numBits v)) v
        | _ => false
      else if t = "float32" then
        match v with
        | .vInt _ => numValueEq (mkF64Value (f32ToF64 (f64ToF32 (numBits v)))) v
        | .vF64 _ => numValueEq (mkF64Value (f32ToF64 (f64ToF32 (numBits v)))) v
        | _ => false
      else
        match resolveEnum doc st t with
        | some e =>
            match v with
            | .vStr s =>
                match alGet e.nameToVal s with
                | some code =>
                    decide (code < 2 ^ 31) && decide (alGet e.valToName code = some s)
                | none => false
            | _ => false
        | none => false

/-- The field is present in the input (not `null`) and its value is
round-trip-clean for the field's type. -/

def fieldReady (doc : SchemaDocument) (st : StructDef)
    (obj : List (String × Value)) (field : Field) : Bool :=
  match alGet obj field.name with
  | some .vNull => false
  | some v => valueOKFor doc st field.type v
  | none => false

/-- Every declared field of the struct is ready in the input object. -/

def structReady (doc : SchemaDocument) (st : StructDef)
    (obj : List (String × Value)) : Bool :=
  st.fields.all (fieldReady doc st obj)

/-! ## Lemmas: association lists -/

def lebList (n : Nat) : List Nat :=
  if n ≤ 127 then [n] else (n % 128 + 128) :: lebList (n / 128)
termination_by n
decreasing_by exact Nat.div_lt_self (by omega) (by omega)

def schemaP : String := "struct P \x7b int8[-5,5] x; bool ok; string name; \x7d"

/-- Scenario 2's schema text, exactly as written there: no space between
`Color` and the opening brace. -/

def schemaC : String :=
  "enum Color\x7bRED=1;GREEN=2;BLUE=3;\x7d struct C \x7b Color c; \x7d"

/-- The compiled form of `schemaP`. -/

def docP : SchemaDocument := ⟨[("P", ⟨[
  ⟨.intType "int8" (some (-5, 5)), "x", none⟩,
  ⟨.tok "bool", "ok", none⟩,
  ⟨.tok "string", "name", none⟩], []⟩)], []⟩

/-- Scenario 2's schema with the space the enum regex needs. -/

def docC2 : SchemaDocument := ⟨[("C", ⟨[⟨.tok "Color", "c", none⟩], []⟩)],
  [("Color", ⟨[("RED", 1), ("GREEN", 2), ("BLUE", 3)],
    [(1, "RED"), (2, "GREEN"), (3, "BLUE")]⟩)]⟩

/-- An enum in which two names share the value 0 (`A=0; B=0`): the
value-to-name table keeps only the later name. -/

def docE : SchemaDocument := ⟨[("S", ⟨[⟨.tok "E", "e", none⟩], []⟩)],
  [("E", ⟨[("A", 0), ("B", 0)], [(0, "B")]⟩)]⟩

/-- A single `float` field. -/

def docQ : SchemaDocument := ⟨[("Q", ⟨[⟨.tok "float", "x", none⟩], []⟩)], []⟩

/-- A single `bool` field. -/

def docB : SchemaDocument := ⟨[("B", ⟨[⟨.tok "bool", "b", none⟩], []⟩)], []⟩

/-- A single `string` field. -/

def docStr : SchemaDocument := ⟨[("S", ⟨[⟨.tok "string", "name", none⟩], []⟩)], []⟩

/-- A `2^31`-character string (never evaluated; reasoned about by induction). -/

def bigStr : String := String.mk (List.replicate (2 ^ 31) 'a')

/-! ## The claims -/

/-- C1 (counterexample to the claim as stated): the schema with enum
`E {A=0; B=0}` compiles, the value `{e:"A"}` passes the validator (its
field is a declared enum name), yet decoding its encoding yields
`{e:"B"}`: the value-to-name table kept only the later of the two names
sharing the code 0, so the round trip is not the identity on this
validator-accepted value. -/

def fieldNeverErrors (doc : SchemaDocument) (st : StructDef) (f : Field) : Bool :=
  match f.type with
  | .intType _ _ => false
  | .tok t =>
      if t = "int" || t = "float" || t = "float64" || t = "float32" then false
      else if t = "string" || t = "any" || t = "bool" then true
      else (resolveEnum doc st t).isSome || (alGet doc.structs t).isNone

/-- Every field of the struct decodes without ever throwing. -/

def decodeTotal (doc : SchemaDocument) (st : StructDef) : Bool :=
  st.fields.all (fieldNeverErrors doc st)

theorem toUint32_of_lt {n : Nat} (h : n < 2 ^ 32) : toUint32 (n : Int) = n := by
  have e : (n : Int).emod (2 ^ 32) = (n : Int) :=
    Int.emod_eq_of_lt (by omega) (by exact_mod_cast h)
  unfold toUint32
  rw [e]
  exact Int.toNat_natCast n

theorem toInt32_of_lt {n : Int} (h0 : 0 ≤ n) (h : n < 2 ^ 31) : toInt32 n = n := by
  unfold toInt32
  have : n.emod (2 ^ 32) = n := Int.emod_eq_of_lt h0 (by omega)
  simp only [this]
  omega

/-! ## Little-endian fixed-width bytes -/

/-- The `w` little-endian bytes of `n` (as written by `DataView.setUint*`
with `littleEndian = true`). -/

@[simp] theorem leBytes_length (w n : Nat) : (leBytes w n).length = w := by
  induction w generalizing n with
  | zero => rfl
  | succ w ih => simp [leBytes, ih]

theorem fromLeBytes_leBytes (w n : Nat) (h : n < 256 ^ w) :
    fromLeBytes (leBytes w n) = n := by
  induction w generalizing n with
  | zero => simp [leBytes, fromLeBytes]; omega
  | succ w ih =>
      simp only [leBytes, fromLeBytes]
      rw [ih (n / 256) (by
        have : 256 ^ (w + 1) = 256 ^ w * 256 := by ring
        omega)]
      omega

/-! ## Characters and JS character classes

The schema text is processed as a `List Char`.  Braces are referred to through
named constants so the scanner stays readable. -/

/-- The character `{`. -/

theorem length_dropWhile_le {α : Type} (p : α → Bool) (l : List α) :
    (l.dropWhile p).length ≤ l.length := by
  induction l with
  | nil => simp [List.dropWhile]
  | cons c cs ih =>
      by_cases h : p c
      · simp [List.dropWhile, h]
        omega
      · simp [List.dropWhile, h]

/-- `decl.split(/\s+/).filter(Boolean)`: the maximal nonempty runs of
non-whitespace characters.  (For the declarations the parser feeds it, the
string never starts with whitespace, so the leading-empty-segment quirk of
`split(/\s+/)` is erased by the `filter`.) -/

theorem alGet_alSet {κ α : Type} [DecidableEq κ] (l : List (κ × α)) (k k' : κ) (v : α) :
    alGet (alSet l k v) k' = if k = k' then some v else alGet l k' := by
  induction l with
  | nil =>
      by_cases h : k = k' <;> simp [alSet, alGet, h]
  | cons p rest ih =>
      obtain ⟨pk, pv⟩ := p
      by_cases hpk : pk = k
      · subst hpk
        by_cases h : pk = k' <;> simp [alSet, alGet, h]
      · by_cases h : pk = k'
        · subst h
          have hne : ¬k = pk := fun hh => hpk hh.symm
          simp [alSet, alGet, hpk, hne]
        · simp [alSet, alGet, hpk, h, ih]

/-! ## Lemmas: buffers -/

theorem bufGet_append (P : List Nat) (x : Nat) (R : List Nat) :
    bufGet (P ++ x :: R) (P.length : Int) = x := by
  unfold bufGet
  rw [if_neg (by omega)]
  have h1 : ((P.length : Int)).toNat = P.length := by omega
  rw [h1, List.getD_eq_getElem?_getD, List.getElem?_append_right (le_refl _)]
  simp

theorem jsClampIndex_of_le (len : Nat) (i : Int) (h0 : 0 ≤ i) (h : i ≤ (len : Int)) :
    jsClampIndex len i = i.toNat := by
  unfold jsClampIndex
  rw [if_neg (by omega), min_eq_left h]

theorem jsSliceBytes_extract (P S R : List Nat) :
    jsSliceBytes (P ++ S ++ R) (P.length : Int) ((P.length : Int) + (S.length : Int)) = S := by
  unfold jsSliceBytes
  have hlen : (P ++ S ++ R).length = P.length + S.length + R.length := by
    simp only [List.length_append]
  rw [jsClampIndex_of_le _ _ (by omega) (by omega),
    jsClampIndex_of_le _ _ (by omega) (by omega)]
  have h1 : (((P.length : Int)) + S.length).toNat = P.length + S.length := by omega
  have h2 : ((P.length : Int)).toNat = P.length := by omega
  rw [h1, h2]
  have ht : (P ++ S ++ R).take (P.length + S.length) = P ++ S := by
    have h := List.take_left (P ++ S) R
    simpa using h
  rw [ht, List.drop_left]

/-! ## Lemmas: disjoint bitwise or and the varint round trip -/

theorem lor_disjoint (s a c : Nat) (h : a < 2 ^ s) :
    a ||| (c * 2 ^ s) = a + c * 2 ^ s := by
  induction s generalizing a c with
  | zero =>
      have : a = 0 := by omega
      subst this
      simp
  | succ s ih =>
      obtain ⟨a2, b, hb, rfl⟩ : ∃ a2 b, b < 2 ∧ a = 2 * a2 + b :=
        ⟨a / 2, a % 2, by omega, by omega⟩
      have hc : c * 2 ^ (s + 1) = Nat.bit false (c * 2 ^ s) := by
        simp [Nat.bit]
        ring
      have ha2 : a2 < 2 ^ s := by
        have : 2 ^ (s + 1) = 2 * 2 ^ s := by ring
        omega
      interval_cases b
      · have ha : 2 * a2 + 0 = Nat.bit false a2 := by simp [Nat.bit]
        rw [ha, hc, Nat.lor_bit, ih a2 c ha2]
        simp [Nat.bit]
        ring
      · have ha : 2 * a2 + 1 = Nat.bit true a2 := by simp [Nat.bit]
        rw [ha, hc, Nat.lor_bit, ih a2 c ha2]
        simp [Nat.bit]
        ring

theorem jsShl_eq (x : Int) (s : Nat) (hx : 0 ≤ x) (hs : s < 32)
    (h : x * 2 ^ s < 2 ^ 31) : jsShl x s = x * 2 ^ s := by
  unfold jsShl
  rw [Nat.mod_eq_of_lt hs]
  exact toInt32_of_lt (by positivity) h

theorem jsOr_disjoint (a : Int) (c s : Nat) (ha : 0 ≤ a) (h1 : a < 2 ^ s)
    (h2 : a + (c : Int) * 2 ^ s < 2 ^ 31) : jsOr a ((c : Int) * 2 ^ s) = a + c * 2 ^ s := by
  have hc0 : (0 : Int) ≤ (c : Int) * 2 ^ s := by positivity
  have ha31 : a < 2 ^ 31 := by omega
  unfold jsOr
  have hu1 : toUint32 a = a.toNat := by
    have he : a.emod (2 ^ 32) = a := Int.emod_eq_of_lt ha (by omega)
    unfold toUint32
    rw [he]
  have hcs : ((c : Int) * 2 ^ s) = ((c * 2 ^ s : Nat) : Int) := by push_cast; ring
  have hcnat : (c * 2 ^ s : Nat) < 2 ^ 32 := by
    have hci : ((c * 2 ^ s : Nat) : Int) < 2 ^ 31 := by rw [← hcs]; omega
    have hlt : (c * 2 ^ s : Nat) < (2 ^ 31 : Nat) := by exact_mod_cast hci
    omega
  have hu2 : toUint32 ((c : Int) * 2 ^ s) = c * 2 ^ s := by
    rw [hcs]
    exact toUint32_of_lt hcnat
  have h1n : a.toNat < 2 ^ s := by
    have hcs' : a < ((2 ^ s : Nat) : Int) := by exact_mod_cast h1
    omega
  have hlor : Nat.lor a.toNat (c * 2 ^ s) = a.toNat + c * 2 ^ s :=
    lor_disjoint s a.toNat c h1n
  rw [hu1, hu2, hlor]
  have hcast : ((a.toNat + c * 2 ^ s : Nat) : Int) = a + (c : Int) * 2 ^ s := by
    push_cast
    omega
  rw [hcast]
  exact toInt32_of_lt (by omega) h2

/-- The pure base-128 little-endian byte list (used only inside proofs; the
executable model is `encodeVarintNatGo`). -/

theorem encodeVarintNatGo_eq_lebList :
    ∀ fuel n, n < 128 ^ fuel → encodeVarintNatGo fuel n = lebList n := by
  intro fuel
  induction fuel with
  | zero =>
      intro n h
      have : n = 0 := by simpa using h
      subst this
      rw [lebList]
      rfl
  | succ fuel ih =>
      intro n h
      rw [lebList, encodeVarintNatGo]
      by_cases h127 : n > 127
      · rw [if_pos h127, if_neg (by omega), ih (n / 128) (by
          have : 128 ^ (fuel + 1) = 128 ^ fuel * 128 := by ring
          omega)]
      · rw [if_neg h127, if_pos (by omega)]

theorem encodeVarint_nat (n : Nat) (h : n < 2 ^ 32) :
    encodeVarint (n : Int) = lebList n := by
  unfold encodeVarint
  by_cases h127 : n ≤ 127
  · rw [if_neg (by exact_mod_cast (by omega : ¬((n : Int) > 127)))]
    rw [lebList, if_pos h127]
    unfold toUint8
    congr 1
    have : (n : Int).emod 256 = n := Int.emod_eq_of_lt (by omega) (by exact_mod_cast (by omega : n < 256))
    rw [this]
    exact Int.toNat_natCast n
  · rw [if_pos (by exact_mod_cast (by omega : (127 : Int) < n)), toUint32_of_lt h,
      lebList, if_neg (by omega),
      encodeVarintNatGo_eq_lebList 40 (n / 128) (by
        calc n / 128 < 2 ^ 32 := by omega
        _ ≤ 128 ^ 40 := by norm_num)]

theorem lebList_len_pos (n : Nat) : 0 < (lebList n).length := by
  rw [lebList]
  by_cases h : n ≤ 127 <;> simp [h]

theorem lebList_lt_256 (n : Nat) : ∀ b ∈ lebList n, b < 256 := by
  induction n using Nat.strong_induction_on with
  | _ n ih =>
      rw [lebList]
      by_cases h : n ≤ 127
      · simp [h]
        omega
      · rw [if_neg h]
        intro b hb
        rcases List.mem_cons.mp hb with rfl | hmem
        · omega
        · exact ih (n / 128) (Nat.div_lt_self (by omega) (by omega)) b hmem

theorem land127_eq_mod (n : Nat) : Nat.land n 127 = n % 128 := by
  have := Nat.and_pow_two_sub_one_eq_mod n 7
  simpa using this

theorem land128_eq (n : Nat) : Nat.land n 128 = n / 128 % 2 * 128 := by
  have h := Nat.and_two_pow n 7
  have ht : (n.testBit 7).toNat = n / 128 % 2 := by
    rw [Nat.testBit_to_div_mod]
    have h128 : (2 : Nat) ^ 7 = 128 := by norm_num
    rw [h128]
    rcases Nat.mod_two_eq_zero_or_one (n / 128) with h0 | h1
    · rw [h0]
      simp
    · rw [h1]
      simp
  calc Nat.land n 128 = n &&& 2 ^ 7 := by norm_num [HAnd.hAnd, AndOp.and]
  _ = (n.testBit 7).toNat * 2 ^ 7 := h
  _ = n / 128 % 2 * 128 := by rw [ht]; norm_num

theorem int_pow_le_pow_of_le {s t : Nat} (h : s ≤ t) : (2 : Int) ^ s ≤ 2 ^ t :=
  pow_le_pow_right₀ (by norm_num) h

/-- The decode loop consumes exactly one little-endian base-128 number:
starting with partial accumulator `a` occupying the bits below `2^s`, it
returns `a + n·2^s` and the position just past the number's bytes.  The
bound `< 2^31` keeps every intermediate `|`/`<<` below the int32 sign bit,
so the JS operators act as plain arithmetic. -/

theorem decodeVarintGo_lebList :
    ∀ n (P R : List Nat) (a : Int) (s : Nat) fuel,
      fuel ≥ (lebList n).length →
      0 ≤ a → a < 2 ^ s → s < 32 →
      a + (n : Int) * 2 ^ s < 2 ^ 31 →
      decodeVarintGo fuel (P ++ lebList n ++ R) (P.length : Int) a s =
        (a + (n : Int) * 2 ^ s, (P.length : Int) + (lebList n).length) := by
  intro n
  induction n using Nat.strong_induction_on with
  | _ n ih =>
      intro P R a s fuel hfuel ha0 has hs31 hbound
      have hs2pow : (2 : Int) ^ s ≤ 2 ^ 31 := int_pow_le_pow_of_le (by omega)
      by_cases h127 : n ≤ 127
      · rw [lebList, if_pos h127] at hfuel ⊢
        obtain ⟨fuel', rfl⟩ : ∃ f, fuel = f + 1 := by
          cases fuel
          · simp at hfuel
          · exact ⟨_, rfl⟩
        rw [decodeVarintGo]
        have hb : bufGet (P ++ [n] ++ R) (P.length : Int) = n := by
          have := bufGet_append P n R
          simpa using this
        rw [hb]
        have hland : Nat.land n 127 = n := by
          rw [land127_eq_mod]
          omega
        have hl2 : Nat.land n 128 = 0 := by
          rw [land128_eq]
          have : n / 128 = 0 := by omega
          simp [this]
        rw [hland, hl2, if_pos rfl]
        have hshl : jsShl ((n : Nat) : Int) s = (n : Int) * 2 ^ s := by
          apply jsShl_eq _ _ (by omega) hs31
          omega
        rw [hshl]
        have hor : jsOr a ((n : Int) * 2 ^ s) = a + (n : Int) * 2 ^ s :=
          jsOr_disjoint a n s ha0 has (by omega)
        rw [hor]
        simp
      · rw [lebList, if_neg h127] at hfuel ⊢
        obtain ⟨fuel', rfl⟩ : ∃ f, fuel = f + 1 := by
          cases fuel
          · simp at hfuel
          · exact ⟨_, rfl⟩
        rw [decodeVarintGo]
        have hb : bufGet (P ++ ((n % 128 + 128) :: lebList (n / 128)) ++ R) (P.length : Int)
            = n % 128 + 128 := by
          have := bufGet_append P (n % 128 + 128) (lebList (n / 128) ++ R)
          simpa using this
        rw [hb]
        have hland : Nat.land (n % 128 + 128) 127 = n % 128 := by
          rw [land127_eq_mod]
          omega
        have hl2 : Nat.land (n % 128 + 128) 128 = 128 := by
          rw [land128_eq]
          have : (n % 128 + 128) / 128 = 1 := by omega
          rw [this]
        rw [hland, hl2, if_neg (by omega)]
        -- bounds needed for the arithmetic readings of `<<` and `|`
        have hn128 : (128 : Int) ≤ (n : Int) := by exact_mod_cast (by omega : 128 ≤ n)
        have hstep : (2 : Int) ^ (s + 7) ≤ (n : Int) * 2 ^ s := by
          calc (2 : Int) ^ (s + 7) = 2 ^ 7 * 2 ^ s := by ring
          _ ≤ (n : Int) * 2 ^ s := by
                have h2s : (0 : Int) < 2 ^ s := by positivity
                have : (2 : Int) ^ 7 ≤ (n : Int) := by norm_num; omega
                exact mul_le_mul_of_nonneg_right this (by positivity)
        have hs7 : s + 7 < 31 := by
          by_contra hcon
          have : (2 : Int) ^ 31 ≤ 2 ^ (s + 7) := int_pow_le_pow_of_le (by omega)
          omega
        have hshl : jsShl ((n % 128 : Nat) : Int) s = ((n % 128 : Nat) : Int) * 2 ^ s := by
          apply jsShl_eq _ _ (by omega) hs31
          have hle : ((n % 128 : Nat) : Int) ≤ (n : Int) := by exact_mod_cast Nat.mod_le n 128
          have h2s : (0 : Int) < 2 ^ s := by positivity
          have : ((n % 128 : Nat) : Int) * 2 ^ s ≤ (n : Int) * 2 ^ s :=
            mul_le_mul_of_nonneg_right hle (by positivity)
          omega
        rw [hshl]
        have hmodle : ((n % 128 : Nat) : Int) * 2 ^ s ≤ (n : Int) * 2 ^ s := by
          have hle : ((n % 128 : Nat) : Int) ≤ (n : Int) := by exact_mod_cast Nat.mod_le n 128
          exact mul_le_mul_of_nonneg_right hle (by positivity)
        have hor : jsOr a (((n % 128 : Nat) : Int) * 2 ^ s) =
            a + ((n % 128 : Nat) : Int) * 2 ^ s :=
          jsOr_disjoint a (n % 128) s ha0 has (by omega)
        rw [hor]
        -- apply the induction hypothesis with the consumed byte moved into `P`
        have hassoc : P ++ ((n % 128 + 128) :: lebList (n / 128)) ++ R =
            (P ++ [n % 128 + 128]) ++ lebList (n / 128) ++ R := by
          simp
        have hlen : ((P ++ [n % 128 + 128]).length : Int) = (P.length : Int) + 1 := by
          simp
        have hdecomp : a + ((n % 128 : Nat) : Int) * 2 ^ s +
            ((n / 128 : Nat) : Int) * 2 ^ (s + 7) = a + (n : Int) * 2 ^ s := by
          have h1 : ((n % 128 : Nat) : Int) + 128 * ((n / 128 : Nat) : Int) = (n : Int) := by
            push_cast
            omega
          calc a + ((n % 128 : Nat) : Int) * 2 ^ s + ((n / 128 : Nat) : Int) * 2 ^ (s + 7)
              = a + (((n % 128 : Nat) : Int) + 128 * ((n / 128 : Nat) : Int)) * 2 ^ s := by
                rw [pow_add]
                ring
          _ = a + (n : Int) * 2 ^ s := by rw [h1]
        have hrec := ih (n / 128) (Nat.div_lt_self (by omega) (by omega))
          (P ++ [n % 128 + 128]) R (a + ((n % 128 : Nat) : Int) * 2 ^ s) (s + 7) fuel'
          (by simp at hfuel; omega)
          (by
            have hpos : (0 : Int) ≤ ((n % 128 : Nat) : Int) * 2 ^ s :=
              mul_nonneg (by omega) (by positivity)
            exact add_nonneg ha0 hpos)
          (by
            have hc : ((n % 128 : Nat) : Int) ≤ 127 := by omega
            have h2s : (0 : Int) ≤ 2 ^ s := by positivity
            have hm : ((n % 128 : Nat) : Int) * 2 ^ s ≤ 127 * 2 ^ s :=
              mul_le_mul_of_nonneg_right hc h2s
            have hfin : (2 : Int) ^ (s + 7) = 128 * 2 ^ s := by
              rw [pow_add]
              ring
            rw [hfin]
            linarith)
          (by omega)
          (by rw [hdecomp]; exact hbound)
        rw [hlen] at hrec
        rw [hassoc, hrec, hdecomp]
        simp [Prod.ext_iff]
        omega


/-- Decoding an encoded varint below `2^31` embedded in a larger buffer
returns the value and consumes exactly its bytes, whatever precedes or
follows it. -/

theorem decodeVarint_encodeVarint (n : Nat) (hn : n < 2 ^ 31) (P R : List Nat) :
    decodeVarint (P ++ encodeVarint (n : Int) ++ R) (P.length : Int) =
      ((n : Int), (P.length : Int) + (encodeVarint (n : Int)).length) := by
  rw [encodeVarint_nat n (by omega)]
  unfold decodeVarint
  have h := decodeVarintGo_lebList n P R 0 0 ((P ++ lebList n ++ R).length + 1)
    (by
      have h1 := lebList_len_pos n
      simp only [List.length_append]
      omega)
    (by omega) (by norm_num) (by norm_num)
    (by
      have hlt : ((n : Nat) : Int) < 2 ^ 31 := by exact_mod_cast hn
      simpa using hlt)
  rw [h]
  simp

/-! ## Lemmas: UTF-8 round trip -/

theorem char_valid_ranges (c : Char) :
    c.toNat < 0xD800 ∨ (0xE000 ≤ c.toNat ∧ c.toNat < 0x110000) := by
  have h := c.valid
  rcases h with h | h
  · left
    exact_mod_cast h
  · right
    obtain ⟨h1, h2⟩ := h
    constructor <;> exact_mod_cast ‹_›

theorem utf8Decode_encodeChar (c : Char) (rest : List Nat) :
    utf8Decode (utf8EncodeChar c ++ rest) = c :: utf8Decode rest := by
  have hv : c.toNat < 0x110000 := by
    rcases char_valid_ranges c with h | h
    · omega
    · omega
  unfold utf8EncodeChar
  by_cases h1 : c.toNat < 0x80
  · rw [if_pos h1]
    simp only [List.cons_append, List.nil_append]
    unfold utf8Decode
    conv_lhs => rw [utf8DecodeSM.eq_def]
    dsimp only
    rw [if_pos rfl, if_pos h1, Char.ofNat_toNat]
  · rw [if_neg h1]
    by_cases h2 : c.toNat < 0x800
    · rw [if_pos h2]
      simp only [List.cons_append, List.nil_append]
      unfold utf8Decode
      conv_lhs => rw [utf8DecodeSM.eq_def]
      dsimp only
      rw [if_pos rfl, if_neg (by omega), if_neg (by omega), if_pos (by omega)]
      conv_lhs => rw [utf8DecodeSM.eq_def]
      dsimp only
      rw [if_neg (by omega)]
      have hcont : utf8IsCont (0x80 + c.toNat % 64) = true := by
        unfold utf8IsCont
        simp
        omega
      rw [hcont, if_pos rfl, if_pos rfl]
      have harith : (0xC0 + c.toNat / 64 - 0xC0) * 64 + (0x80 + c.toNat % 64 - 0x80) =
          c.toNat := by omega
      rw [harith, Char.ofNat_toNat]
    · rw [if_neg h2]
      by_cases h3 : c.toNat < 0x10000
      · rw [if_pos h3]
        simp only [List.cons_append, List.nil_append]
        unfold utf8Decode
        conv_lhs => rw [utf8DecodeSM.eq_def]
        dsimp only
        rw [if_pos rfl, if_neg (by omega), if_neg (by omega), if_neg (by omega),
          if_pos (by omega)]
        conv_lhs => rw [utf8DecodeSM.eq_def]
        dsimp only
        rw [if_neg (by omega)]
        have hcont1 : utf8IsCont (0x80 + c.toNat / 64 % 64) = true := by
          unfold utf8IsCont
          simp
          omega
        rw [hcont1, if_pos rfl, if_neg (by omega)]
        conv_lhs => rw [utf8DecodeSM.eq_def]
        dsimp only
        rw [if_neg (by omega)]
        have hcont2 : utf8IsCont (0x80 + c.toNat % 64) = true := by
          unfold utf8IsCont
          simp
          omega
        rw [hcont2, if_pos rfl, if_pos rfl]
        have harith : ((0xE0 + c.toNat / 4096 - 0xE0) * 64 +
            (0x80 + c.toNat / 64 % 64 - 0x80)) * 64 + (0x80 + c.toNat % 64 - 0x80) =
            c.toNat := by omega
        rw [harith, Char.ofNat_toNat]
      · rw [if_neg h3]
        simp only [List.cons_append, List.nil_append]
        unfold utf8Decode
        conv_lhs => rw [utf8DecodeSM.eq_def]
        dsimp only
        rw [if_pos rfl, if_neg (by omega), if_neg (by omega), if_neg (by omega),
          if_neg (by omega), if_pos (by omega)]
        conv_lhs => rw [utf8DecodeSM.eq_def]
        dsimp only
        rw [if_neg (by omega)]
        have hcont1 : utf8IsCont (0x80 + c.toNat / 4096 % 64) = true := by
          unfold utf8IsCont
          simp
          omega
        rw [hcont1, if_pos rfl, if_neg (by omega)]
        conv_lhs => rw [utf8DecodeSM.eq_def]
        dsimp only
        rw [if_neg (by omega)]
        have hcont2 : utf8IsCont (0x80 + c.toNat / 64 % 64) = true := by
          unfold utf8IsCont
          simp
          omega
        rw [hcont2, if_pos rfl, if_neg (by omega)]
        conv_lhs => rw [utf8DecodeSM.eq_def]
        dsimp only
        rw [if_neg (by omega)]
        have hcont3 : utf8IsCont (0x80 + c.toNat % 64) = true := by
          unfold utf8IsCont
          simp
          omega
        rw [hcont3, if_pos rfl, if_pos rfl]
        have harith : (((0xF0 + c.toNat / 262144 - 0xF0) * 64 +
            (0x80 + c.toNat / 4096 % 64 - 0x80)) * 64 +
            (0x80 + c.toNat / 64 % 64 - 0x80)) * 64 + (0x80 + c.toNat % 64 - 0x80) =
            c.toNat := by omega
        rw [harith, Char.ofNat_toNat]

theorem utf8Decode_encode_append (s : List Char) (rest : List Nat) :
    utf8Decode (s.flatMap utf8EncodeChar ++ rest) = s ++ utf8Decode rest := by
  induction s with
  | nil => simp
  | cons c cs ih =>
      simp only [List.flatMap_cons, List.append_assoc]
      rw [utf8Decode_encodeChar c (cs.flatMap utf8EncodeChar ++ rest), ih]
      rfl

/-- `TextDecoder ∘ TextEncoder` is the identity (with arbitrary trailing
bytes tolerated). -/

theorem utf8_roundtrip (s : String) (rest : List Nat) :
    utf8Decode (utf8Encode s ++ rest) = s.data ++ utf8Decode rest :=
  utf8Decode_encode_append s.data rest

theorem utf8Decode_nil : utf8Decode [] = [] := rfl



/-! ## Lemmas: fixed-width integers and float reads -/

theorem extract_append (P S R : List Nat) :
    ((P ++ S ++ R).drop P.length).take S.length = S := by
  rw [List.append_assoc, List.drop_left, List.take_left]

theorem extract_take_eq (P S R : List Nat) (k : Nat) (hk : S.length = k) :
    ((P ++ S ++ R).drop P.length).take k = S := by
  subst hk
  exact extract_append P S R

theorem readFixedInt_append (P R : List Nat) (v : Int) (bits : Nat) (signed : Bool)
    (hbits : bits = 8 ∨ bits = 16 ∨ bits = 32)
    (hrange : if signed then -(2 ^ (bits - 1)) ≤ v ∧ v < 2 ^ (bits - 1)
              else 0 ≤ v ∧ v < 2 ^ bits) :
    readFixedInt (P ++ writeFixedInt v bits ++ R) (P.length : Int) bits signed =
      .ok (v, (P.length : Int) + (bits / 8 : Nat)) := by
  unfold readFixedInt writeFixedInt
  dsimp only
  have hlen8 : (leBytes (bits / 8) (v % 2 ^ bits).toNat).length = bits / 8 :=
    leBytes_length _ _
  have hlength : (P ++ leBytes (bits / 8) (v % 2 ^ bits).toNat ++ R).length =
      P.length + bits / 8 + R.length := by
    simp only [List.length_append, hlen8]
  rw [if_neg (by
    push_neg
    refine ⟨by omega, ?_⟩
    rw [hlength]
    push_cast
    omega)]
  have h2 : ((P.length : Int)).toNat = P.length := by omega
  rw [h2, extract_take_eq _ _ _ _ hlen8]
  have hmodn : (v % 2 ^ bits).toNat < 256 ^ (bits / 8) := by
    rcases hbits with rfl | rfl | rfl <;> (norm_num <;> omega)
  rw [fromLeBytes_leBytes _ _ hmodn]
  cases signed with
  | false =>
      simp only [Bool.false_eq_true, if_false] at hrange
      rw [if_neg (by simp)]
      have hexact : v % 2 ^ bits = v := Int.emod_eq_of_lt hrange.1 hrange.2
      rw [hexact]
      congr 2
      omega
  | true =>
      simp only [if_pos rfl] at hrange
      obtain ⟨hlo, hhi⟩ := hrange
      by_cases hneg : v < 0
      · have hm : v % 2 ^ bits = v + 2 ^ bits := by
          rcases hbits with rfl | rfl | rfl <;> (norm_num <;> omega)
        have hge : 2 ^ (bits - 1) ≤ (v % 2 ^ bits).toNat := by
          rcases hbits with rfl | rfl | rfl <;> (norm_num <;> omega)
        rw [if_pos ⟨rfl, hge⟩, hm]
        congr 2
        rcases hbits with rfl | rfl | rfl <;> (norm_num <;> omega)
      · have hm : v % 2 ^ bits = v := by
          rcases hbits with rfl | rfl | rfl <;> (norm_num <;> omega)
        rw [if_neg (by
          intro hcon
          rcases hbits with rfl | rfl | rfl <;> (norm_num <;> omega))]
        rw [hm]
        congr 2
        omega

theorem rne_le (S k : Nat) : rne S k ≤ S / 2 ^ k + 1 := by
  unfold rne
  split
  · next h => subst h; simp
  · dsimp only
    split
    · exact Nat.le_refl _
    · exact Nat.le_succ _

/-- A narrowed binary32 pattern always fits in 32 bits. -/

theorem f64ToF32_lt (b : Nat) : f64ToF32 b < 2 ^ 32 := by
  unfold f64ToF32
  dsimp only
  split
  · split <;> omega
  · split
    · have hc := rne_le (2 ^ 52 + b % 2 ^ 52) 29
      by_cases h24 : rne (2 ^ 52 + b % 2 ^ 52) 29 = 2 ^ 24 <;>
        simp only [h24, if_pos, if_neg, if_true, if_false] <;>
        split <;> omega
    · next he2047 he897 =>
      have hk : 30 ≤ 926 - max (b / 2 ^ 52 % 2 ^ 11) 1 := by omega
      have hS : (if b / 2 ^ 52 % 2 ^ 11 = 0 then b % 2 ^ 52 else 2 ^ 52 + b % 2 ^ 52)
          ≤ 2 ^ 53 - 1 := by split <;> omega
      have h1 := rne_le (if b / 2 ^ 52 % 2 ^ 11 = 0 then b % 2 ^ 52 else 2 ^ 52 + b % 2 ^ 52)
        (926 - max (b / 2 ^ 52 % 2 ^ 11) 1)
      have h2 : (if b / 2 ^ 52 % 2 ^ 11 = 0 then b % 2 ^ 52 else 2 ^ 52 + b % 2 ^ 52) /
          2 ^ (926 - max (b / 2 ^ 52 % 2 ^ 11) 1) ≤ (2 ^ 53 - 1) / 2 ^ 30 :=
        le_trans (Nat.div_le_div_left (pow_le_pow_right₀ (by norm_num) hk) (by positivity))
          (Nat.div_le_div_right hS)
      omega

theorem readFloat64_append (P R : List Nat) (b : Nat) (hb : b < 2 ^ 64) :
    readFloat64 (P ++ writeFloat64 b ++ R) (P.length : Int) =
      .ok (mkF64Value b, (P.length : Int) + 8) := by
  unfold readFloat64 writeFloat64
  have hlen : (leBytes 8 b).length = 8 := leBytes_length _ _
  have hlength : (P ++ leBytes 8 b ++ R).length = P.length + 8 + R.length := by
    simp only [List.length_append, hlen]
  rw [if_neg (by
    push_neg
    refine ⟨by omega, ?_⟩
    rw [hlength]
    push_cast
    omega)]
  have h2 : ((P.length : Int)).toNat = P.length := by omega
  rw [h2, extract_take_eq _ _ _ _ hlen,
    fromLeBytes_leBytes 8 b (by
      have h8 : (256 : Nat) ^ 8 = 2 ^ 64 := by norm_num
      omega)]

theorem readFloat32_append (P R : List Nat) (b64 : Nat) :
    readFloat32 (P ++ writeFloat32 b64 ++ R) (P.length : Int) =
      .ok (mkF64Value (f32ToF64 (f64ToF32 b64)), (P.length : Int) + 4) := by
  unfold readFloat32 writeFloat32
  have hlen : (leBytes 4 (f64ToF32 b64)).length = 4 := leBytes_length _ _
  have hlength : (P ++ leBytes 4 (f64ToF32 b64) ++ R).length = P.length + 4 + R.length := by
    simp only [List.length_append, hlen]
  rw [if_neg (by
    push_neg
    refine ⟨by omega, ?_⟩
    rw [hlength]
    push_cast
    omega)]
  have h2 : ((P.length : Int)).toNat = P.length := by omega
  rw [h2, extract_take_eq _ _ _ _ hlen,
    fromLeBytes_leBytes 4 (f64ToF32 b64) (by
      have h4 : (256 : Nat) ^ 4 = 2 ^ 32 := by norm_num
      have := f64ToF32_lt b64
      omega)]

/-! ## Lemmas: the validator accepts round-trip-clean values -/

theorem intInfoFor_bits (name : String) :
    (intInfoFor name).bits = 8 ∨ (intInfoFor name).bits = 16 ∨ (intInfoFor name).bits = 32 := by
  unfold intInfoFor INT_TYPES
  simp only [alGet]
  repeat' split
  all_goals simp

theorem numValueEq_eq (x y : Value) (h : numValueEq x y = true) : x = y := by
  cases x <;> cases y <;> simp [numValueEq] at h <;> simp [h]

theorem validateEnumValue_of_OK (e : EnumDef) (tname : String) (s : String)
    (path : String) (code : Nat) (hcode : alGet e.nameToVal s = some code) :
    validateEnumValue e tname (.vStr s) path = .ok () := by
  simp only [validateEnumValue, hcode]
  rfl

theorem validate_of_OK (doc : SchemaDocument) (st : StructDef) (ft : FieldType)
    (v : Value) (path : String) (h : valueOKFor doc st ft v = true) :
    validateValueForField doc ft v path st.localEnums = .ok () := by
  cases ft with
  | intType name rng =>
      cases v with
      | vInt n =>
          simp only [valueOKFor, Bool.and_eq_true] at h
          obtain ⟨hfit, hrng⟩ := h
          simp only [validateValueForField]
          cases rng with
          | some p =>
              obtain ⟨a, b⟩ := p
              simp only [decide_eq_true_eq] at hrng
              dsimp only
              rw [if_neg (by simp only [Bool.or_eq_true, decide_eq_true_eq]; omega)]
          | none =>
              dsimp only
              cases hib : intrinsicBoundsForInt name with
              | none => rfl
              | some p =>
                  obtain ⟨a, b⟩ := p
                  dsimp only at hrng
                  rw [hib] at hrng
                  dsimp only at hrng
                  simp only [decide_eq_true_eq] at hrng
                  dsimp only
                  rw [if_neg (by simp only [Bool.or_eq_true, decide_eq_true_eq]; omega)]
      | vF64 b => simp [valueOKFor] at h
      | vBool b => simp [valueOKFor] at h
      | vStr s => simp [valueOKFor] at h
      | vNull => simp [valueOKFor] at h
      | vObj fs => simp [valueOKFor] at h
      | anyParsed s => simp [valueOKFor] at h
  | tok t =>
      simp only [valueOKFor] at h
      by_cases hInt : t = "int"
      · subst hInt
        cases v <;> simp only [] at h <;> first | rfl | (exfalso; simp at h)
      · rw [if_neg hInt] at h
        by_cases hStr : t = "string"
        · subst hStr
          cases v <;> simp only [] at h <;> first | rfl | (exfalso; simp at h)
        · rw [if_neg hStr] at h
          by_cases hAny : t = "any"
          · subst hAny; simp at h
          · rw [if_neg hAny] at h
            by_cases hBool : t = "bool"
            · subst hBool
              cases v <;> simp only [] at h <;> first | rfl | (exfalso; simp at h)
            · rw [if_neg hBool] at h
              by_cases hF : t = "float"
              · subst hF
                cases v <;> simp only [] at h <;> first | rfl | (exfalso; simp at h)
              · by_cases hF64 : t = "float64"
                · subst hF64
                  cases v <;> simp only [] at h <;> first | rfl | (exfalso; simp at h)
                · rw [if_neg (by simp [hF, hF64])] at h
                  by_cases hF32 : t = "float32"
                  · subst hF32
                    cases v <;> simp only [] at h <;> first | rfl | (exfalso; simp at h)
                  · rw [if_neg hF32] at h
                    cases hre : resolveEnum doc st t with
                    | none => rw [hre] at h; simp at h
                    | some e =>
                        rw [hre] at h
                        cases v with
                        | vStr s =>
                            dsimp only at h
                            cases hnv : alGet e.nameToVal s with
                            | none => rw [hnv] at h; simp at h
                            | some code =>
                                simp only [validateValueForField]
                                rw [if_neg hInt,
                                  if_neg (by simp [hF, hF32, hF64]),
                                  if_neg hBool, if_neg hStr, if_neg hAny]
                                cases hL : alGet st.localEnums t with
                                | some e' =>
                                    have he' : e' = e := by
                                      have h2 : resolveEnum doc st t = some e' := by
                                        simp [resolveEnum, hL]
                                      rw [h2] at hre
                                      exact (Option.some.injEq _ _ ▸ hre)
                                    subst he'
                                    dsimp only
                                    exact validateEnumValue_of_OK e' t s path code hnv
                                | none =>
                                    have hG : alGet doc.enums t = some e := by
                                      have h2 : resolveEnum doc st t = alGet doc.enums t := by
                                        simp [resolveEnum, hL]
                                      rw [← h2, hre]
                                    rw [hG]
                                    dsimp only
                                    exact validateEnumValue_of_OK e t s path code hnv
                        | vInt n => dsimp only at h; simp at h
                        | vF64 b => simp at h
                        | vBool b => simp at h
                        | vNull => simp at h
                        | vObj fs => simp at h
                        | anyParsed s => simp at h

theorem exceptBind_ok {ε α β : Type} (a : α) (f : α → Except ε β) :
    (Except.ok a >>= f : Except ε β) = f a := rfl

theorem encodeFieldValue_intType (enc : String → List (String × Value) → Except String (List Nat))
    (doc : SchemaDocument) (st : StructDef) (fname : String) (dflt : Option String)
    (name : String) (rng : Option (Int × Int)) (n : Int)
    (hOK : valueOKFor doc st (.intType name rng) (.vInt n) = true) :
    encodeFieldValue enc doc st ⟨.intType name rng, fname, dflt⟩ (.vInt n) =
      .ok (writeFixedInt n ((alGet INT_TYPES name).getD ⟨true, 32⟩).bits) := by
  simp only [valueOKFor, Bool.and_eq_true] at hOK
  obtain ⟨hfit, hrng⟩ := hOK
  simp only [encodeFieldValue]
  cases rng with
  | none => rfl
  | some p =>
      obtain ⟨a, b⟩ := p
      simp only [decide_eq_true_eq] at hrng
      dsimp only
      rw [if_neg (by simp only [Bool.or_eq_true, decide_eq_true_eq]; omega)]
      rfl

theorem intFits_window (name : String) (n : Int)
    (h : intFits (intInfoFor name) n = true) :
    if ((alGet INT_TYPES name).getD ⟨true, 32⟩).signed then
      -(2 ^ (((alGet INT_TYPES name).getD ⟨true, 32⟩).bits - 1)) ≤ n ∧
        n < 2 ^ (((alGet INT_TYPES name).getD ⟨true, 32⟩).bits - 1)
    else 0 ≤ n ∧ n < 2 ^ ((alGet INT_TYPES name).getD ⟨true, 32⟩).bits := by
  unfold intFits intInfoFor at h
  split at h <;> simp_all [intInfoFor]

theorem decodeFieldStep_intType
    (dec : String → List Nat → Int → Except String (List (String × Value)))
    (doc : SchemaDocument) (st : StructDef) (fname : String) (dflt : Option String)
    (name : String) (rng : Option (Int × Int)) (n : Int)
    (hOK : valueOKFor doc st (.intType name rng) (.vInt n) = true)
    (P R : List Nat) (acc : List (String × Value)) :
    decodeFieldStep dec doc st
        (P ++ writeFixedInt n ((alGet INT_TYPES name).getD ⟨true, 32⟩).bits ++ R)
        (.ok (acc, (P.length : Int))) ⟨.intType name rng, fname, dflt⟩ =
      .ok (alSet acc fname (.vInt n),
        (P.length : Int) +
          (writeFixedInt n ((alGet INT_TYPES name).getD ⟨true, 32⟩).bits).length) := by
  simp only [valueOKFor, Bool.and_eq_true] at hOK
  obtain ⟨hfit, hrng⟩ := hOK
  have hbits := intInfoFor_bits name
  unfold intInfoFor at hbits
  have hwin := intFits_window name n hfit
  have hlen : (writeFixedInt n ((alGet INT_TYPES name).getD ⟨true, 32⟩).bits).length =
      ((alGet INT_TYPES name).getD ⟨true, 32⟩).bits / 8 := by
    unfold writeFixedInt
    exact leBytes_length _ _
  have hread := readFixedInt_append P R n ((alGet INT_TYPES name).getD ⟨true, 32⟩).bits
    ((alGet INT_TYPES name).getD ⟨true, 32⟩).signed hbits hwin
  simp only [decodeFieldStep]
  rw [exceptBind_ok]
  dsimp only
  rw [if_neg (by
    simp only [List.length_append, hlen]
    push_cast
    rcases hbits with hb | hb | hb <;> rw [hb] <;> push_cast <;> omega)]
  rw [hread, exceptBind_ok]
  dsimp only
  rw [hlen]
  rfl

theorem encodeFieldValue_tokInt (enc : String → List (String × Value) → Except String (List Nat))
    (doc : SchemaDocument) (st : StructDef) (fname : String) (dflt : Option String) (n : Int) :
    encodeFieldValue enc doc st ⟨.tok "int", fname, dflt⟩ (.vInt n) =
      .ok (writeFixedInt n 32) := rfl

theorem decodeFieldStep_tokInt
    (dec : String → List Nat → Int → Except String (List (String × Value)))
    (doc : SchemaDocument) (st : StructDef) (fname : String) (dflt : Option String) (n : Int)
    (hOK : valueOKFor doc st (.tok "int") (.vInt n) = true)
    (P R : List Nat) (acc : List (String × Value)) :
    decodeFieldStep dec doc st (P ++ writeFixedInt n 32 ++ R)
        (.ok (acc, (P.length : Int))) ⟨.tok "int", fname, dflt⟩ =
      .ok (alSet acc fname (.vInt n), (P.length : Int) + (writeFixedInt n 32).length) := by
  simp only [valueOKFor] at hOK
  have hwin : -(2 ^ 31) ≤ n ∧ n < 2 ^ 31 := by
    simp only [intFits, intInfoFor] at hOK
    norm_num at hOK
    exact hOK
  have hlen : (writeFixedInt n 32).length = 4 := leBytes_length _ _
  have hread := readFixedInt_append P R n 32 true (by norm_num) (by
    rw [if_pos rfl]
    norm_num
    exact hwin)
  simp only [decodeFieldStep]
  rw [exceptBind_ok]
  dsimp only
  rw [if_neg (by
    simp only [List.length_append, hlen]
    push_cast
    omega)]
  rw [if_pos trivial]
  rw [show ((alGet INT_TYPES "int").getD ⟨true, 32⟩ : IntInfo) = ⟨true, 32⟩ from rfl]
  dsimp only
  rw [hread, exceptBind_ok]
  dsimp only
  rw [hlen]
  norm_num
  rfl

theorem encodeFieldValue_bool (enc : String → List (String × Value) → Except String (List Nat))
    (doc : SchemaDocument) (st : StructDef) (fname : String) (dflt : Option String) (b : Bool) :
    encodeFieldValue enc doc st ⟨.tok "bool", fname, dflt⟩ (.vBool b) =
      .ok [if b then 1 else 0] := rfl

theorem decodeFieldStep_bool
    (dec : String → List Nat → Int → Except String (List (String × Value)))
    (doc : SchemaDocument) (st : StructDef) (fname : String) (dflt : Option String) (b : Bool)
    (P R : List Nat) (acc : List (String × Value)) :
    decodeFieldStep dec doc st (P ++ [if b then 1 else 0] ++ R)
        (.ok (acc, (P.length : Int))) ⟨.tok "bool", fname, dflt⟩ =
      .ok (alSet acc fname (.vBool b), (P.length : Int) + 1) := by
  have hcons : P ++ [if b then 1 else 0] ++ R = P ++ (if b then 1 else 0) :: R := by simp
  simp only [decodeFieldStep]
  rw [exceptBind_ok]
  dsimp only
  rw [if_neg (by
    simp only [List.length_append, List.length_cons, List.length_nil]
    push_cast
    omega)]
  rw [if_neg (by decide), if_neg (by decide), if_neg (by decide), if_pos (by decide)]
  rw [hcons, bufGet_append]
  cases b <;> rfl

theorem encodeFieldValue_float (enc : String → List (String × Value) → Except String (List Nat))
    (doc : SchemaDocument) (st : StructDef) (fname : String) (dflt : Option String) (v : Value) :
    encodeFieldValue enc doc st ⟨.tok "float", fname, dflt⟩ v =
      .ok (writeFloat64 (numBits v)) := rfl

theorem encodeFieldValue_float64 (enc : String → List (String × Value) → Except String (List Nat))
    (doc : SchemaDocument) (st : StructDef) (fname : String) (dflt : Option String) (v : Value) :
    encodeFieldValue enc doc st ⟨.tok "float64", fname, dflt⟩ v =
      .ok (writeFloat64 (numBits v)) := rfl

theorem encodeFieldValue_float32 (enc : String → List (String × Value) → Except String (List Nat))
    (doc : SchemaDocument) (st : StructDef) (fname : String) (dflt : Option String) (v : Value) :
    encodeFieldValue enc doc st ⟨.tok "float32", fname, dflt⟩ v =
      .ok (writeFloat32 (numBits v)) := rfl

theorem decodeFieldStep_float64Tok
    (dec : String → List Nat → Int → Except String (List (String × Value)))
    (doc : SchemaDocument) (st : StructDef) (t fname : String) (dflt : Option String) (v : Value)
    (ht : t = "float" ∨ t = "float64")
    (hb64 : numBits v < 2 ^ 64) (heq : mkF64Value (numBits v) = v)
    (P R : List Nat) (acc : List (String × Value)) :
    decodeFieldStep dec doc st (P ++ writeFloat64 (numBits v) ++ R)
        (.ok (acc, (P.length : Int))) ⟨.tok t, fname, dflt⟩ =
      .ok (alSet acc fname v, (P.length : Int) + 8) := by
  have hlen : (writeFloat64 (numBits v)).length = 8 := leBytes_length _ _
  have hread := readFloat64_append P R (numBits v) hb64
  simp only [decodeFieldStep]
  rw [exceptBind_ok]
  dsimp only
  rw [if_neg (by
    simp only [List.length_append, hlen]
    push_cast
    omega)]
  rcases ht with rfl | rfl
  · rw [if_neg (by decide), if_neg (by decide), if_neg (by decide), if_neg (by decide),
      if_pos (by decide)]
    rw [hread, exceptBind_ok]
    dsimp only
    rw [heq]
    rfl
  · rw [if_neg (by decide), if_neg (by decide), if_neg (by decide), if_neg (by decide),
      if_pos (by decide)]
    rw [hread, exceptBind_ok]
    dsimp only
    rw [heq]
    rfl

theorem decodeFieldStep_float32Tok
    (dec : String → List Nat → Int → Except String (List (String × Value)))
    (doc : SchemaDocument) (st : StructDef) (fname : String) (dflt : Option String) (v : Value)
    (heq : mkF64Value (f32ToF64 (f64ToF32 (numBits v))) = v)
    (P R : List Nat) (acc : List (String × Value)) :
    decodeFieldStep dec doc st (P ++ writeFloat32 (numBits v) ++ R)
        (.ok (acc, (P.length : Int))) ⟨.tok "float32", fname, dflt⟩ =
      .ok (alSet acc fname v, (P.length : Int) + 4) := by
  have hlen : (writeFloat32 (numBits v)).length = 4 := leBytes_length _ _
  have hread := readFloat32_append P R (numBits v)
  simp only [decodeFieldStep]
  rw [exceptBind_ok]
  dsimp only
  rw [if_neg (by
    simp only [List.length_append, hlen]
    push_cast
    omega)]
  rw [if_neg (by decide), if_neg (by decide), if_neg (by decide), if_neg (by decide),
    if_neg (by decide), if_pos (by decide)]
  rw [hread, exceptBind_ok]
  dsimp only
  rw [heq]
  rfl

theorem stringMk_data (s : String) : String.mk s.data = s := by
  cases s
  rfl

theorem utf8Decode_utf8Encode (s : String) : utf8Decode (utf8Encode s) = s.data := by
  have h := utf8_roundtrip s []
  simpa [utf8Decode_nil] using h

theorem encodeVarint_length_pos (n : Int) : 0 < (encodeVarint n).length := by
  unfold encodeVarint
  split <;> simp

theorem encodeFieldValue_string (enc : String → List (String × Value) → Except String (List Nat))
    (doc : SchemaDocument) (st : StructDef) (fname : String) (dflt : Option String) (s : String) :
    encodeFieldValue enc doc st ⟨.tok "string", fname, dflt⟩ (.vStr s) =
      .ok (encodeVarint ((utf8Encode s).length : Int) ++ utf8Encode s) := rfl

theorem decodeFieldStep_string
    (dec : String → List Nat → Int → Except String (List (String × Value)))
    (doc : SchemaDocument) (st : StructDef) (fname : String) (dflt : Option String) (s : String)
    (hlen31 : (utf8Encode s).length < 2 ^ 31)
    (P R : List Nat) (acc : List (String × Value)) :
    decodeFieldStep dec doc st
        (P ++ (encodeVarint ((utf8Encode s).length : Int) ++ utf8Encode s) ++ R)
        (.ok (acc, (P.length : Int))) ⟨.tok "string", fname, dflt⟩ =
      .ok (alSet acc fname (.vStr s),
        (P.length : Int) +
          ((encodeVarint ((utf8Encode s).length : Int) ++ utf8Encode s)).length) := by
  have hvpos := encodeVarint_length_pos ((utf8Encode s).length : Int)
  have hassoc : P ++ (encodeVarint ((utf8Encode s).length : Int) ++ utf8Encode s) ++ R =
      P ++ encodeVarint ((utf8Encode s).length : Int) ++ (utf8Encode s ++ R) := by
    simp [List.append_assoc]
  have hvar := decodeVarint_encodeVarint (utf8Encode s).length hlen31 P (utf8Encode s ++ R)
  simp only [decodeFieldStep]
  rw [exceptBind_ok]
  dsimp only
  rw [if_neg (by
    simp only [List.length_append]
    push_cast
    omega)]
  rw [if_neg (by decide), if_pos (by decide)]
  rw [hassoc, hvar]
  dsimp only
  have hassoc2 : P ++ encodeVarint ((utf8Encode s).length : Int) ++ (utf8Encode s ++ R) =
      (P ++ encodeVarint ((utf8Encode s).length : Int)) ++ utf8Encode s ++ R := by
    simp [List.append_assoc]
  have hp2 : (P.length : Int) + ((encodeVarint ((utf8Encode s).length : Int)).length : Int) =
      (((P ++ encodeVarint ((utf8Encode s).length : Int)).length : Nat) : Int) := by
    simp only [List.length_append]
    push_cast
    ring
  rw [hassoc2, hp2, jsSliceBytes_extract (P ++ encodeVarint ((utf8Encode s).length : Int))
    (utf8Encode s) R]
  rw [utf8Decode_utf8Encode, stringMk_data]
  have hpos : (((P ++ encodeVarint ((utf8Encode s).length : Int)).length : Nat) : Int) +
      ((utf8Encode s).length : Int) =
      (P.length : Int) +
        ((encodeVarint ((utf8Encode s).length : Int) ++ utf8Encode s).length : Int) := by
    simp only [List.length_append]
    push_cast
    ring
  rw [hpos]
  rfl

theorem encodeFieldValue_enum (enc : String → List (String × Value) → Except String (List Nat))
    (doc : SchemaDocument) (st : StructDef) (t fname : String) (dflt : Option String)
    (e : EnumDef) (s : String) (code : Nat)
    (h1 : ¬t = "int") (h2 : ¬t = "string") (h3 : ¬t = "any") (h4 : ¬t = "bool")
    (h5 : ¬t = "float") (h6 : ¬t = "float64") (h7 : ¬t = "float32")
    (hre : resolveEnum doc st t = some e) (hnv : alGet e.nameToVal s = some code) :
    encodeFieldValue enc doc st ⟨.tok t, fname, dflt⟩ (.vStr s) =
      .ok (encodeVarint (code : Int)) := by
  simp only [encodeFieldValue]
  rw [if_neg h1, if_neg h2, if_neg h3, if_neg h4,
    if_neg (by simp [h5, h6]), if_neg h7, hre]
  dsimp only [encodeFieldValue.enumCodeOf]
  rw [hnv]
  rfl

theorem decodeFieldStep_enum
    (dec : String → List Nat → Int → Except String (List (String × Value)))
    (doc : SchemaDocument) (st : StructDef) (t fname : String) (dflt : Option String)
    (e : EnumDef) (s : String) (code : Nat)
    (h1 : ¬t = "int") (h2 : ¬t = "string") (h3 : ¬t = "any") (h4 : ¬t = "bool")
    (h5 : ¬t = "float") (h6 : ¬t = "float64") (h7 : ¬t = "float32")
    (hre : resolveEnum doc st t = some e) (hcode : code < 2 ^ 31)
    (hvn : alGet e.valToName code = some s)
    (P R : List Nat) (acc : List (String × Value)) :
    decodeFieldStep dec doc st (P ++ encodeVarint (code : Int) ++ R)
        (.ok (acc, (P.length : Int))) ⟨.tok t, fname, dflt⟩ =
      .ok (alSet acc fname (.vStr s),
        (P.length : Int) + ((encodeVarint (code : Int)).length : Int)) := by
  have hvpos := encodeVarint_length_pos (code : Int)
  have hvar := decodeVarint_encodeVarint code hcode P R
  simp only [decodeFieldStep]
  rw [exceptBind_ok]
  dsimp only
  rw [if_neg (by
    simp only [List.length_append]
    push_cast
    omega)]
  rw [if_neg h1, if_neg h2, if_neg h3, if_neg h4,
    if_neg (by simp [h5, h6]), if_neg h7, hre]
  dsimp only [decodeFieldStep.decodeEnumAt]
  rw [hvar]
  dsimp only
  rw [if_pos (by positivity), Int.toNat_natCast, hvn]
  rfl

/-- One supported field: validation passes, the encoder emits a non-empty
chunk, and decoding that chunk (in any buffer context, at the chunk's
offset) stores back exactly the original value and advances the cursor by
the chunk's length. -/

theorem fieldRoundtrip (doc : SchemaDocument) (st : StructDef) (field : Field) (val : Value)
    (enc : String → List (String × Value) → Except String (List Nat))
    (dec : String → List Nat → Int → Except String (List (String × Value)))
    (path : String)
    (hOK : valueOKFor doc st field.type val = true) :
    ∃ chunk : List Nat, 0 < chunk.length ∧
      validateValueForField doc field.type val path st.localEnums = .ok () ∧
      encodeFieldValue enc doc st field val = .ok chunk ∧
      ∀ (P R : List Nat) (acc : List (String × Value)),
        decodeFieldStep dec doc st (P ++ chunk ++ R) (.ok (acc, (P.length : Int))) field =
          .ok (alSet acc field.name val, (P.length : Int) + chunk.length) := by
  obtain ⟨ftype, fname, dflt⟩ := field
  have hval := validate_of_OK doc st ftype val path hOK
  dsimp only at hOK hval ⊢
  cases ftype with
  | intType name rng =>
      cases val with
      | vInt n =>
          refine ⟨writeFixedInt n ((alGet INT_TYPES name).getD ⟨true, 32⟩).bits, ?_, hval,
            encodeFieldValue_intType enc doc st fname dflt name rng n hOK,
            fun P R acc => decodeFieldStep_intType dec doc st fname dflt name rng n hOK P R acc⟩
          have hb := intInfoFor_bits name
          unfold intInfoFor at hb
          have hl : (writeFixedInt n ((alGet INT_TYPES name).getD ⟨true, 32⟩).bits).length =
              ((alGet INT_TYPES name).getD ⟨true, 32⟩).bits / 8 := leBytes_length _ _
          rw [hl]
          rcases hb with hb | hb | hb <;> rw [hb] <;> norm_num
      | vF64 b => simp [valueOKFor] at hOK
      | vBool b => simp [valueOKFor] at hOK
      | vStr s => simp [valueOKFor] at hOK
      | vNull => simp [valueOKFor] at hOK
      | vObj fs => simp [valueOKFor] at hOK
      | anyParsed s => simp [valueOKFor] at hOK
  | tok t =>
      simp only [valueOKFor] at hOK
      by_cases hInt : t = "int"
      · subst hInt
        cases val with
        | vInt n =>
            exact ⟨writeFixedInt n 32, by
                have : (writeFixedInt n 32).length = 4 := leBytes_length _ _
                omega, hval,
              encodeFieldValue_tokInt enc doc st fname dflt n,
              fun P R acc => decodeFieldStep_tokInt dec doc st fname dflt n
                (by simpa [valueOKFor] using hOK) P R acc⟩
        | vF64 b => simp at hOK
        | vBool b => simp at hOK
        | vStr s => simp at hOK
        | vNull => simp at hOK
        | vObj fs => simp at hOK
        | anyParsed s => simp at hOK
      · rw [if_neg hInt] at hOK
        by_cases hStr : t = "string"
        · subst hStr
          cases val with
          | vStr s =>
              have hlen31 : (utf8Encode s).length < 2 ^ 31 := by
                simp only [] at hOK
                simpa using hOK
              refine ⟨encodeVarint ((utf8Encode s).length : Int) ++ utf8Encode s, ?_, hval,
                encodeFieldValue_string enc doc st fname dflt s,
                fun P R acc => by
                  have h := decodeFieldStep_string dec doc st fname dflt s hlen31 P R acc
                  simpa using h⟩
              have := encodeVarint_length_pos ((utf8Encode s).length : Int)
              simp only [List.length_append]
              omega
          | vInt n => simp at hOK
          | vF64 b => simp at hOK
          | vBool b => simp at hOK
          | vNull => simp at hOK
          | vObj fs => simp at hOK
          | anyParsed s => simp at hOK
        · rw [if_neg hStr] at hOK
          by_cases hAny : t = "any"
          · subst hAny; simp at hOK
          · rw [if_neg hAny] at hOK
            by_cases hBool : t = "bool"
            · subst hBool
              cases val with
              | vBool b =>
                  exact ⟨[if b then 1 else 0], by simp, hval,
                    encodeFieldValue_bool enc doc st fname dflt b,
                    fun P R acc => by
                      have h := decodeFieldStep_bool dec doc st fname dflt b P R acc
                      simpa using h⟩
              | vInt n => simp at hOK
              | vF64 b => simp at hOK
              | vStr s => simp at hOK
              | vNull => simp at hOK
              | vObj fs => simp at hOK
              | anyParsed s => simp at hOK
            · rw [if_neg hBool] at hOK
              by_cases hF : t = "float" ∨ t = "float64"
              · have hnum : (decide (numBits val < 2 ^ 64) &&
                    numValueEq (mkF64Value (numBits val)) val) = true := by
                  rcases hF with rfl | rfl <;>
                    cases val <;> simp only [] at hOK <;> first | exact hOK | (exfalso; simp at hOK)
                simp only [Bool.and_eq_true, decide_eq_true_eq] at hnum
                obtain ⟨hb64, hnve⟩ := hnum
                have heq := numValueEq_eq _ _ hnve
                have hlen : (writeFloat64 (numBits val)).length = 8 := leBytes_length _ _
                have hencEq : encodeFieldValue enc doc st ⟨.tok t, fname, dflt⟩ val =
                    .ok (writeFloat64 (numBits val)) := by
                  rcases hF with rfl | rfl
                  · exact encodeFieldValue_float enc doc st fname dflt val
                  · exact encodeFieldValue_float64 enc doc st fname dflt val
                refine ⟨writeFloat64 (numBits val), by omega, hval, hencEq,
                  fun P R acc => by
                    have h := decodeFieldStep_float64Tok dec doc st t fname dflt val hF hb64 heq
                      P R acc
                    rw [h, hlen]
                    norm_num⟩
              · push_neg at hF
                obtain ⟨hF1, hF64⟩ := hF
                rw [if_neg (by simp [hF1, hF64])] at hOK
                by_cases hF32 : t = "float32"
                · subst hF32
                  have hnum : numValueEq (mkF64Value (f32ToF64 (f64ToF32 (numBits val)))) val
                      = true := by
                    cases val <;> simp only [] at hOK <;>
                      first | exact hOK | (exfalso; simp at hOK)
                  have heq := numValueEq_eq _ _ hnum
                  have hlen : (writeFloat32 (numBits val)).length = 4 := leBytes_length _ _
                  refine ⟨writeFloat32 (numBits val), by omega, hval,
                    encodeFieldValue_float32 enc doc st fname dflt val,
                    fun P R acc => by
                      have h := decodeFieldStep_float32Tok dec doc st fname dflt val heq P R acc
                      rw [h, hlen]
                      norm_num⟩
                · rw [if_neg hF32] at hOK
                  cases hre : resolveEnum doc st t with
                  | none => rw [hre] at hOK; simp at hOK
                  | some e =>
                      rw [hre] at hOK
                      cases val with
                      | vStr s =>
                          dsimp only at hOK
                          cases hnv : alGet e.nameToVal s with
                          | none => rw [hnv] at hOK; simp at hOK
                          | some code =>
                              rw [hnv] at hOK
                              simp only [Bool.and_eq_true, decide_eq_true_eq] at hOK
                              obtain ⟨hcode, hvn⟩ := hOK
                              refine ⟨encodeVarint (code : Int),
                                encodeVarint_length_pos _, hval,
                                encodeFieldValue_enum enc doc st t fname dflt e s code
                                  hInt hStr hAny hBool hF1 hF64 hF32 hre hnv,
                                fun P R acc =>
                                  decodeFieldStep_enum dec doc st t fname dflt e s code
                                    hInt hStr hAny hBool hF1 hF64 hF32 hre hcode hvn P R acc⟩
                      | vInt n => dsimp only at hOK; simp at hOK
                      | vF64 b => simp at hOK
                      | vBool b => simp at hOK
                      | vNull => simp at hOK
                      | vObj fs => simp at hOK
                      | anyParsed s => simp at hOK

theorem effectiveVal_some (obj : List (String × Value)) (f : Field) (val : Value)
    (hv : alGet obj f.name = some val) (hnn : val ≠ .vNull) :
    effectiveVal obj f = some val := by
  unfold effectiveVal
  rw [hv]
  cases val <;> first | rfl | (exfalso; exact hnn rfl)

theorem encodeFieldStep_ok (enc : String → List (String × Value) → Except String (List Nat))
    (doc : SchemaDocument) (st : StructDef) (typeName : String)
    (obj : List (String × Value)) (B : List Nat) (f : Field) (val : Value) (chunk : List Nat)
    (heff : effectiveVal obj f = some val)
    (hval : validateValueForField doc f.type val (typeName ++ "." ++ f.name) st.localEnums
      = .ok ())
    (henc : encodeFieldValue enc doc st f val = .ok chunk) :
    encodeFieldStep enc doc st typeName obj (.ok B) f = .ok (B ++ chunk) := by
  simp only [encodeFieldStep]
  rw [exceptBind_ok]
  rw [heff]
  dsimp only
  rw [hval, exceptBind_ok, henc, exceptBind_ok]
  rfl

theorem fieldsRoundtrip (doc : SchemaDocument) (st : StructDef) (typeName : String)
    (obj : List (String × Value))
    (enc : String → List (String × Value) → Except String (List Nat))
    (dec : String → List Nat → Int → Except String (List (String × Value)))
    (fields : List Field) :
    fields.all (fieldReady doc st obj) = true →
    ∀ B : List Nat,
    ∃ bs : List Nat,
      List.foldl (encodeFieldStep enc doc st typeName obj) (.ok B) fields = .ok (B ++ bs) ∧
      ∀ (P R : List Nat) (acc : List (String × Value)),
        List.foldl (decodeFieldStep dec doc st (P ++ bs ++ R)) (.ok (acc, (P.length : Int)))
            fields =
          .ok (List.foldl (fun a f => alSet a f.name ((alGet obj f.name).getD .vNull)) acc
              fields,
            (P.length : Int) + bs.length) := by
  induction fields with
  | nil =>
      intro _ B
      refine ⟨[], by simp, fun P R acc => ?_⟩
      simp
  | cons f fs ih =>
      intro hall B
      simp only [List.all_cons, Bool.and_eq_true] at hall
      obtain ⟨hf, hfs⟩ := hall
      unfold fieldReady at hf
      cases hv : alGet obj f.name with
      | none => rw [hv] at hf; exact absurd hf (by simp)
      | some val =>
          rw [hv] at hf
          have hnn : val ≠ .vNull := by
            intro hcon
            subst hcon
            simp at hf
          have hOK : valueOKFor doc st f.type val = true := by
            cases val <;> first | (exfalso; exact hnn rfl) | exact hf
          obtain ⟨chunk, hcpos, hval, henc, hdec⟩ :=
            fieldRoundtrip doc st f val enc dec (typeName ++ "." ++ f.name) hOK
          have heff := effectiveVal_some obj f val hv hnn
          obtain ⟨bs', hencs, hdecs⟩ := ih hfs (B ++ chunk)
          refine ⟨chunk ++ bs', ?_, ?_⟩
          · rw [List.foldl_cons,
              encodeFieldStep_ok enc doc st typeName obj B f val chunk heff hval henc, hencs]
            rw [List.append_assoc]
          · intro P R acc
            have hbuf : P ++ (chunk ++ bs') ++ R = P ++ chunk ++ (bs' ++ R) := by
              simp [List.append_assoc]
            rw [List.foldl_cons, hbuf]
            rw [hdec P (bs' ++ R) acc]
            have hpos' : (P.length : Int) + (chunk.length : Int) =
                (((P ++ chunk).length : Nat) : Int) := by
              simp only [List.length_append]
              push_cast
              ring
            rw [hpos']
            have hbuf2 : P ++ chunk ++ (bs' ++ R) = (P ++ chunk) ++ bs' ++ R := by
              simp [List.append_assoc]
            rw [hbuf2, hdecs (P ++ chunk) R (alSet acc f.name val)]
            have hwrite : (alGet obj f.name).getD .vNull = val := by rw [hv]; rfl
            have hposF : (((P ++ chunk).length : Nat) : Int) + (bs'.length : Int) =
                (P.length : Int) + ((chunk ++ bs').length : Int) := by
              simp only [List.length_append]
              push_cast
              ring
            rw [hposF, List.foldl_cons, hwrite]

theorem alGet_writes_not_mem (fields : List Field) (obj acc : List (String × Value))
    (k : String) (hk : ∀ f ∈ fields, f.name ≠ k) :
    alGet (List.foldl (fun a f => alSet a f.name ((alGet obj f.name).getD .vNull)) acc fields)
        k = alGet acc k := by
  induction fields generalizing acc with
  | nil => rfl
  | cons f fs ih =>
      rw [List.foldl_cons, ih _ (fun g hg => hk g (List.mem_cons_of_mem f hg)),
        alGet_alSet, if_neg (hk f (List.mem_cons_self f fs))]

theorem alGet_writes_mem (fields : List Field) (obj acc : List (String × Value))
    (k : String)
    (hobj : ∀ f ∈ fields, (alGet obj f.name).isSome = true)
    (hmem : ∃ f ∈ fields, f.name = k) :
    alGet (List.foldl (fun a f => alSet a f.name ((alGet obj f.name).getD .vNull)) acc fields)
        k = alGet obj k := by
  induction fields generalizing acc with
  | nil => obtain ⟨f, hf, _⟩ := hmem; exact absurd hf (List.not_mem_nil f)
  | cons f fs ih =>
      rw [List.foldl_cons]
      by_cases hfs : ∃ g ∈ fs, g.name = k
      · exact ih _ (fun g hg => hobj g (List.mem_cons_of_mem f hg)) hfs
      · push_neg at hfs
        have hfk : f.name = k := by
          obtain ⟨g, hg, hgk⟩ := hmem
          rcases List.mem_cons.mp hg with rfl | hg'
          · exact hgk
          · exact absurd hgk (hfs g hg')
        rw [alGet_writes_not_mem fs obj _ k hfs, alGet_alSet, if_pos hfk]
        have hsome := hobj f (List.mem_cons_self f fs)
        cases hval : alGet obj f.name with
        | none => rw [hval] at hsome; simp at hsome
        | some v => rw [← hfk, hval]; rfl

theorem fieldReady_isSome (doc : SchemaDocument) (st : StructDef)
    (obj : List (String × Value)) (f : Field) (h : fieldReady doc st obj f = true) :
    (alGet obj f.name).isSome = true := by
  unfold fieldReady at h
  cases hv : alGet obj f.name with
  | none => rw [hv] at h; simp at h
  | some v => rfl

/-- One unfolding step of `encodeGo`. -/

theorem encodeGo_succ (doc : SchemaDocument) (fuel : Nat) (typeName : String)
    (obj : List (String × Value)) :
    encodeGo doc (fuel + 1) typeName obj =
      match alGet doc.structs typeName with
      | none => .error ("Unknown struct: " ++ typeName)
      | some st =>
          encodeFields (fun tn o => encodeGo doc fuel tn o) doc st typeName
            st.fields obj := rfl

/-- One unfolding step of `decodeGo`. -/

theorem decodeGo_succ (doc : SchemaDocument) (fuel : Nat) (typeName : String)
    (buf : List Nat) (offset : Int) :
    decodeGo doc (fuel + 1) typeName buf offset =
      (match alGet doc.structs typeName with
      | none => .error ("Unknown struct: " ++ typeName)
      | some st => do
          let r ← decodeFields (fun tn b off => decodeGo doc fuel tn b off)
            doc st st.fields buf offset
          pure r.1) := by
  rw [decodeGo]

/-- The shared core of the C1 and C9 claims: a ready object encodes
successfully, and decoding the encoding (with arbitrary trailing bytes)
reproduces every field and consumes exactly the encoding's length. -/

theorem encode_decode_core (doc : SchemaDocument) (typeName : String) (st : StructDef)
    (obj : List (String × Value))
    (hst : alGet doc.structs typeName = some st)
    (hready : structReady doc st obj = true) :
    ∃ (bs : List Nat) (res : List (String × Value)),
      encode doc typeName obj = .ok bs ∧
      (∀ T : List Nat,
        decodeFields (fun tn b off => decodeGo doc 99 tn b off) doc st st.fields
            (bs ++ T) 0 = .ok (res, (bs.length : Int)) ∧
        decode doc typeName (bs ++ T) = .ok res) ∧
      decode doc typeName bs = .ok res ∧
      ∀ f ∈ st.fields, alGet res f.name = alGet obj f.name := by
  unfold structReady at hready
  obtain ⟨bs, hencs, hdecs⟩ := fieldsRoundtrip doc st typeName obj
    (fun tn o => encodeGo doc 99 tn o) (fun tn b off => decodeGo doc 99 tn b off)
    st.fields hready []
  have hd0 : ∀ T : List Nat,
      decodeFields (fun tn b off => decodeGo doc 99 tn b off) doc st st.fields
        (bs ++ T) 0 =
      .ok (List.foldl (fun a f => alSet a f.name ((alGet obj f.name).getD .vNull)) []
          st.fields, (bs.length : Int)) := by
    intro T
    have hd := hdecs [] T []
    simp only [List.nil_append, List.length_nil, Nat.cast_zero, Int.zero_add] at hd
    unfold decodeFields
    exact hd
  refine ⟨bs,
    List.foldl (fun a f => alSet a f.name ((alGet obj f.name).getD .vNull)) [] st.fields,
    ?_, ?_, ?_, ?_⟩
  · show encodeGo doc 100 typeName obj = .ok bs
    rw [show (100 : Nat) = 99 + 1 from rfl, encodeGo_succ, hst]
    dsimp only
    unfold encodeFields
    rw [hencs]
    rfl
  · intro T
    refine ⟨hd0 T, ?_⟩
    show decodeGo doc 100 typeName (bs ++ T) 0 = _
    rw [show (100 : Nat) = 99 + 1 from rfl, decodeGo_succ, hst]
    dsimp only
    rw [hd0 T, exceptBind_ok]
    rfl
  · show decodeGo doc 100 typeName bs 0 = _
    rw [show (100 : Nat) = 99 + 1 from rfl, decodeGo_succ, hst]
    dsimp only
    have hd := hd0 []
    rw [List.append_nil] at hd
    rw [hd, exceptBind_ok]
    rfl
  · intro f hf
    exact alGet_writes_mem st.fields obj [] f.name
      (fun g hg => fieldReady_isSome doc st obj g
        ((List.all_eq_true.mp hready) g hg))
      ⟨f, hf, rfl⟩

/-! ## Concrete schema documents used by the claims and their witnesses -/

/-- Scenario 1's schema text (`struct P { int8[-5,5] x; bool ok; string name; }`). -/

theorem claim_C1_counterexample :
    validateValueForField docE (.tok "E") (.vStr "A") "S.e" [] = .ok () ∧
    encode docE "S" [("e", .vStr "A")] = .ok [0] ∧
    decode docE "S" [0] = .ok [("e", .vStr "B")] ∧
    alGet [("e", Value.vStr "B")] "e" ≠ alGet [("e", Value.vStr "A")] "e" :=
  ⟨rfl, rfl, rfl, fun hcon =>
    absurd (Value.vStr.inj (Option.some.inj hcon)) (by decide)⟩

/-- C1 (amended): for every schema document, struct `S` in it, and object
whose declared fields are all present, non-`null` and round-trip-clean for
their field types (`valueOKFor`: validator-accepted, and in addition the
integers lie in the written two's-complement window, string payloads and
enum codes stay below `2^31`, floats are exactly representable at the
stored width, and enum values are names whose code maps back to the same
name; `any` and nested-struct fields excluded), `encode` succeeds and
decoding its output reproduces the object on every declared field. -/

theorem claim_C1 (doc : SchemaDocument) (typeName : String) (st : StructDef)
    (obj : List (String × Value))
    (hst : alGet doc.structs typeName = some st)
    (hready : structReady doc st obj = true) :
    ∃ (bs : List Nat) (res : List (String × Value)),
      encode doc typeName obj = .ok bs ∧
      decode doc typeName bs = .ok res ∧
      ∀ f ∈ st.fields, alGet res f.name = alGet obj f.name := by
  obtain ⟨bs, res, he, _, hd, hfields⟩ := encode_decode_core doc typeName st obj hst hready
  exact ⟨bs, res, he, hd, hfields⟩

/-- C1 witness: the amended round trip at scenario 1's schema and value. -/

theorem claim_C1_witness :
    alGet docP.structs "P" = some ⟨[
      ⟨.intType "int8" (some (-5, 5)), "x", none⟩,
      ⟨.tok "bool", "ok", none⟩,
      ⟨.tok "string", "name", none⟩], []⟩ ∧
    structReady docP ⟨[
      ⟨.intType "int8" (some (-5, 5)), "x", none⟩,
      ⟨.tok "bool", "ok", none⟩,
      ⟨.tok "string", "name", none⟩], []⟩
      [("x", .vInt 3), ("ok", .vBool true), ("name", .vStr "hi")] = true ∧
    ∃ (bs : List Nat) (res : List (String × Value)),
      encode docP "P" [("x", .vInt 3), ("ok", .vBool true), ("name", .vStr "hi")] = .ok bs ∧
      decode docP "P" bs = .ok res ∧
      ∀ f ∈ (⟨[
        ⟨.intType "int8" (some (-5, 5)), "x", none⟩,
        ⟨.tok "bool", "ok", none⟩,
        ⟨.tok "string", "name", none⟩], []⟩ : StructDef).fields,
          alGet res f.name = alGet [("x", Value.vInt 3), ("ok", Value.vBool true),
            ("name", Value.vStr "hi")] f.name :=
  ⟨rfl, rfl, claim_C1 docP "P" _ _ rfl rfl⟩

/-- C3: the exact scenario-2 schema text (no space before the enum's
opening brace) does NOT behave as the spec says: the enum regex
`/enum (\w+) \{([^}]*)\}/g` requires a space, so `Color` is never
registered; the struct compiles with `Color c` as an unknown type token,
`encode({c:"BLUE"})` throws `Unknown type: Color at C.c` instead of
producing `[0x03]`, and `decode([0x03])` silently skips the field,
returning `{}` instead of `{c:"BLUE"}`. -/

theorem claim_C3 :
    parseSchema schemaC = .ok ⟨[("C", ⟨[⟨.tok "Color", "c", none⟩], []⟩)], []⟩ ∧
    encode ⟨[("C", ⟨[⟨.tok "Color", "c", none⟩], []⟩)], []⟩ "C" [("c", .vStr "BLUE")]
      = .error "Unknown type: Color at C.c" ∧
    decode ⟨[("C", ⟨[⟨.tok "Color", "c", none⟩], []⟩)], []⟩ "C" [0x03] = .ok [] :=
  ⟨rfl, rfl, rfl⟩

/-- C5: compiling scenario 1's schema text and encoding
`{x:3, ok:true, name:"hi"}` yields exactly `[0x03, 0x01, 0x02, 0x68, 0x69]`,
which decodes back to the same object. -/

theorem claim_C5 :
    parseSchema schemaP = .ok docP ∧
    encode docP "P" [("x", .vInt 3), ("ok", .vBool true), ("name", .vStr "hi")]
      = .ok [0x03, 0x01, 0x02, 0x68, 0x69] ∧
    decode docP "P" [0x03, 0x01, 0x02, 0x68, 0x69]
      = .ok [("x", .vInt 3), ("ok", .vBool true), ("name", .vStr "hi")] :=
  ⟨rfl, rfl, rfl⟩

/-- C6: on an enum-typed field, decode looks the wire code up in the
value-to-name table: a hit stores the symbolic name, a miss stores the raw
number unchanged; both paths return `.ok`, never an error. -/

theorem claim_C6
    (dec : String → List Nat → Int → Except String (List (String × Value)))
    (doc : SchemaDocument) (st : StructDef) (t fname : String) (dflt : Option String)
    (e : EnumDef) (buf : List Nat) (obj : List (String × Value)) (pos : Int)
    (n p2 : Int)
    (h1 : ¬t = "int") (h2 : ¬t = "string") (h3 : ¬t = "any") (h4 : ¬t = "bool")
    (h5 : ¬t = "float") (h6 : ¬t = "float64") (h7 : ¬t = "float32")
    (hre : resolveEnum doc st t = some e)
    (hpos : ¬pos ≥ (buf.length : Int))
    (hvar : decodeVarint buf pos = (n, p2)) :
    (∀ nm : String, (if 0 ≤ n then alGet e.valToName n.toNat else none) = some nm →
      decodeFieldStep dec doc st buf (.ok (obj, pos)) ⟨.tok t, fname, dflt⟩ =
        .ok (alSet obj fname (.vStr nm), p2)) ∧
    ((if 0 ≤ n then alGet e.valToName n.toNat else none) = none →
      decodeFieldStep dec doc st buf (.ok (obj, pos)) ⟨.tok t, fname, dflt⟩ =
        .ok (alSet obj fname (.vInt n), p2)) := by
  have hstep : decodeFieldStep dec doc st buf (.ok (obj, pos)) ⟨.tok t, fname, dflt⟩ =
      .ok (alSet obj fname
        (match (if 0 ≤ n then alGet e.valToName n.toNat else none) with
          | some nm => Value.vStr nm
          | none => Value.vInt n), p2) := by
    simp only [decodeFieldStep]
    rw [exceptBind_ok]
    dsimp only
    rw [if_neg hpos, if_neg h1, if_neg h2, if_neg h3, if_neg h4,
      if_neg (by simp [h5, h6]), if_neg h7, hre]
    dsimp only [decodeFieldStep.decodeEnumAt]
    rw [hvar]
    rfl
  constructor
  · intro nm hnm
    rw [hstep, hnm]
  · intro hnone
    rw [hstep, hnone]

/-- C6 witness: under `docC2`'s enum, wire code 2 maps to `GREEN` and wire
code 9 (absent from the table) passes through as the raw number 9. -/

theorem claim_C6_witness :
    (decodeFieldStep (fun tn b off => decodeGo docC2 99 tn b off) docC2
        ⟨[⟨.tok "Color", "c", none⟩], []⟩ [2] (.ok ([], 0)) ⟨.tok "Color", "c", none⟩ =
      .ok ([("c", Value.vStr "GREEN")], 1)) ∧
    (decodeFieldStep (fun tn b off => decodeGo docC2 99 tn b off) docC2
        ⟨[⟨.tok "Color", "c", none⟩], []⟩ [9] (.ok ([], 0)) ⟨.tok "Color", "c", none⟩ =
      .ok ([("c", Value.vInt 9)], 1)) := by
  constructor
  · exact ((claim_C6 (fun tn b off => decodeGo docC2 99 tn b off) docC2
      ⟨[⟨.tok "Color", "c", none⟩], []⟩ "Color" "c" none
      ⟨[("RED", 1), ("GREEN", 2), ("BLUE", 3)], [(1, "RED"), (2, "GREEN"), (3, "BLUE")]⟩
      [2] [] 0 2 1 (by decide) (by decide) (by decide) (by decide) (by decide) (by decide)
      (by decide) rfl (by decide) rfl).1 "GREEN" rfl)
  · exact ((claim_C6 (fun tn b off => decodeGo docC2 99 tn b off) docC2
      ⟨[⟨.tok "Color", "c", none⟩], []⟩ "Color" "c" none
      ⟨[("RED", 1), ("GREEN", 2), ("BLUE", 3)], [(1, "RED"), (2, "GREEN"), (3, "BLUE")]⟩
      [9] [] 0 9 1 (by decide) (by decide) (by decide) (by decide) (by decide) (by decide)
      (by decide) rfl (by decide) rfl).2 rfl)

/-- C7: a field absent from the input object with no default literal
contributes no bytes at all to the encoding (the loop iteration is a
no-op), and when the decode cursor has reached the end of the buffer the
field is skipped, leaving the decoded object without any entry for it. -/

theorem claim_C7
    (enc : String → List (String × Value) → Except String (List Nat))
    (dec : String → List Nat → Int → Except String (List (String × Value)))
    (doc : SchemaDocument) (st : StructDef) (typeName : String)
    (obj : List (String × Value)) (f : Field) (B : List Nat)
    (buf : List Nat) (acc : List (String × Value)) (pos : Int)
    (habs : alGet obj f.name = none) (hnd : f.dflt = none)
    (hend : pos ≥ (buf.length : Int)) :
    encodeFieldStep enc doc st typeName obj (.ok B) f = .ok B ∧
    decodeFieldStep dec doc st buf (.ok (acc, pos)) f = .ok (acc, pos) ∧
    (alGet acc f.name = none →
      ∃ res : List (String × Value) × Int,
        decodeFieldStep dec doc st buf (.ok (acc, pos)) f = .ok res ∧
          alGet res.1 f.name = none) := by
  have heff : effectiveVal obj f = none := by
    unfold effectiveVal
    rw [habs, hnd]
    rfl
  have hdec : decodeFieldStep dec doc st buf (.ok (acc, pos)) f = .ok (acc, pos) := by
    simp only [decodeFieldStep]
    rw [exceptBind_ok]
    dsimp only
    rw [if_pos hend]
    rfl
  refine ⟨?_, hdec, fun hnone => ⟨(acc, pos), hdec, hnone⟩⟩
  simp only [encodeFieldStep]
  rw [exceptBind_ok]
  rw [heff]
  rfl

/-- C7 witness: `docP`'s defaultless `x` field, absent from the object,
adds no bytes, and decode at an exhausted buffer leaves it absent. -/

theorem claim_C7_witness :
    encodeFieldStep (fun tn o => encodeGo docP 99 tn o) docP
      ⟨[⟨.intType "int8" (some (-5, 5)), "x", none⟩, ⟨.tok "bool", "ok", none⟩,
        ⟨.tok "string", "name", none⟩], []⟩ "P"
      [("ok", .vBool true)] (.ok [7]) ⟨.intType "int8" (some (-5, 5)), "x", none⟩
      = .ok [7] ∧
    decodeFieldStep (fun tn b off => decodeGo docP 99 tn b off) docP
      ⟨[⟨.intType "int8" (some (-5, 5)), "x", none⟩, ⟨.tok "bool", "ok", none⟩,
        ⟨.tok "string", "name", none⟩], []⟩ [7] (.ok ([("ok", Value.vBool true)], 1))
      ⟨.intType "int8" (some (-5, 5)), "x", none⟩
      = .ok ([("ok", Value.vBool true)], 1) ∧
    (alGet [("ok", Value.vBool true)] "x" = none →
      ∃ res : List (String × Value) × Int,
        decodeFieldStep (fun tn b off => decodeGo docP 99 tn b off) docP
          ⟨[⟨.intType "int8" (some (-5, 5)), "x", none⟩, ⟨.tok "bool", "ok", none⟩,
            ⟨.tok "string", "name", none⟩], []⟩ [7]
          (.ok ([("ok", Value.vBool true)], 1)) ⟨.intType "int8" (some (-5, 5)), "x", none⟩
          = .ok res ∧ alGet res.1 "x" = none) :=
  claim_C7 (fun tn o => encodeGo docP 99 tn o) (fun tn b off => decodeGo docP 99 tn b off)
    docP _ "P" [("ok", .vBool true)] ⟨.intType "int8" (some (-5, 5)), "x", none⟩ [7]
    [7] [("ok", Value.vBool true)] 1 rfl rfl (by decide)

theorem readFloat32_bytes (P R : List Nat) (c : Nat) (hc : c < 2 ^ 32) :
    readFloat32 (P ++ leBytes 4 c ++ R) (P.length : Int) =
      .ok (mkF64Value (f32ToF64 c), (P.length : Int) + 4) := by
  unfold readFloat32
  have hlen : (leBytes 4 c).length = 4 := leBytes_length _ _
  rw [if_neg (by
    push_neg
    refine ⟨by omega, ?_⟩
    simp only [List.length_append, hlen]
    push_cast
    omega)]
  have h2 : ((P.length : Int)).toNat = P.length := by omega
  rw [h2, extract_take_eq _ _ _ _ hlen,
    fromLeBytes_leBytes 4 c (by
      have h4 : (256 : Nat) ^ 4 = 2 ^ 32 := by norm_num
      omega)]

theorem decodeFieldStep_float64_bytes
    (dec : String → List Nat → Int → Except String (List (String × Value)))
    (doc : SchemaDocument) (st : StructDef) (t fname : String) (dflt : Option String)
    (b : Nat) (hb : b < 2 ^ 64) (ht : t = "float" ∨ t = "float64")
    (P R : List Nat) (acc : List (String × Value)) :
    decodeFieldStep dec doc st (P ++ leBytes 8 b ++ R)
        (.ok (acc, (P.length : Int))) ⟨.tok t, fname, dflt⟩ =
      .ok (alSet acc fname (mkF64Value b), (P.length : Int) + 8) := by
  have hlen : (leBytes 8 b).length = 8 := leBytes_length _ _
  have hread : readFloat64 (P ++ leBytes 8 b ++ R) (P.length : Int) =
      .ok (mkF64Value b, (P.length : Int) + 8) := readFloat64_append P R b hb
  simp only [decodeFieldStep]
  rw [exceptBind_ok]
  dsimp only
  rw [if_neg (by
    simp only [List.length_append, hlen]
    push_cast
    omega)]
  rcases ht with rfl | rfl
  · rw [if_neg (by decide), if_neg (by decide), if_neg (by decide), if_neg (by decide),
      if_pos (by decide), hread, exceptBind_ok]
    rfl
  · rw [if_neg (by decide), if_neg (by decide), if_neg (by decide), if_neg (by decide),
      if_pos (by decide), hread, exceptBind_ok]
    rfl

theorem decodeFieldStep_float32_bytes
    (dec : String → List Nat → Int → Except String (List (String × Value)))
    (doc : SchemaDocument) (st : StructDef) (fname : String) (dflt : Option String)
    (c : Nat) (hc : c < 2 ^ 32)
    (P R : List Nat) (acc : List (String × Value)) :
    decodeFieldStep dec doc st (P ++ leBytes 4 c ++ R)
        (.ok (acc, (P.length : Int))) ⟨.tok "float32", fname, dflt⟩ =
      .ok (alSet acc fname (mkF64Value (f32ToF64 c)), (P.length : Int) + 4) := by
  have hlen : (leBytes 4 c).length = 4 := leBytes_length _ _
  have hread := readFloat32_bytes P R c hc
  simp only [decodeFieldStep]
  rw [exceptBind_ok]
  dsimp only
  rw [if_neg (by
    simp only [List.length_append, hlen]
    push_cast
    omega)]
  rw [if_neg (by decide), if_neg (by decide), if_neg (by decide), if_neg (by decide),
    if_neg (by decide), if_pos (by decide), hread, exceptBind_ok]
  rfl

/-- C8: a `float` field encodes exactly like a `float64` field: the 8
little-endian bytes of the value's binary64 bit pattern; `float32` fields
hold the 4 little-endian bytes of the binary32 narrowing; decode reads
back 8 (respectively 4) bytes and advances the cursor by exactly that
much. -/

theorem claim_C8
    (enc : String → List (String × Value) → Except String (List Nat))
    (dec : String → List Nat → Int → Except String (List (String × Value)))
    (doc : SchemaDocument) (st : StructDef) (fname : String) (dflt : Option String)
    (v : Value) (b c : Nat) (P R : List Nat) (acc : List (String × Value))
    (hb : b < 2 ^ 64) (hc : c < 2 ^ 32) :
    encodeFieldValue enc doc st ⟨.tok "float", fname, dflt⟩ v =
      .ok (leBytes 8 (numBits v)) ∧
    encodeFieldValue enc doc st ⟨.tok "float64", fname, dflt⟩ v =
      .ok (leBytes 8 (numBits v)) ∧
    (leBytes 8 (numBits v)).length = 8 ∧
    encodeFieldValue enc doc st ⟨.tok "float32", fname, dflt⟩ v =
      .ok (leBytes 4 (f64ToF32 (numBits v))) ∧
    (leBytes 4 (f64ToF32 (numBits v))).length = 4 ∧
    decodeFieldStep dec doc st (P ++ leBytes 8 b ++ R)
        (.ok (acc, (P.length : Int))) ⟨.tok "float", fname, dflt⟩ =
      .ok (alSet acc fname (mkF64Value b), (P.length : Int) + 8) ∧
    decodeFieldStep dec doc st (P ++ leBytes 8 b ++ R)
        (.ok (acc, (P.length : Int))) ⟨.tok "float64", fname, dflt⟩ =
      .ok (alSet acc fname (mkF64Value b), (P.length : Int) + 8) ∧
    decodeFieldStep dec doc st (P ++ leBytes 4 c ++ R)
        (.ok (acc, (P.length : Int))) ⟨.tok "float32", fname, dflt⟩ =
      .ok (alSet acc fname (mkF64Value (f32ToF64 c)), (P.length : Int) + 4) :=
  ⟨encodeFieldValue_float enc doc st fname dflt v,
   encodeFieldValue_float64 enc doc st fname dflt v,
   leBytes_length _ _,
   encodeFieldValue_float32 enc doc st fname dflt v,
   leBytes_length _ _,
   decodeFieldStep_float64_bytes dec doc st "float" fname dflt b hb (Or.inl rfl) P R acc,
   decodeFieldStep_float64_bytes dec doc st "float64" fname dflt b hb (Or.inr rfl) P R acc,
   decodeFieldStep_float32_bytes dec doc st fname dflt c hc P R acc⟩

/-- C8 witness: the claim at `docQ`'s struct, value `1.5`
(bits `0x3FF8000000000000`), and the byte patterns for `1.5` and `0.1f`. -/

theorem claim_C8_witness :
    (0x3FF8000000000000 : Nat) < 2 ^ 64 ∧ (0x3DCCCCCD : Nat) < 2 ^ 32 ∧
    encodeFieldValue (fun tn o => encodeGo docQ 99 tn o) docQ
        ⟨[⟨.tok "float", "x", none⟩], []⟩ ⟨.tok "float", "x", none⟩
        (.vF64 0x3FF8000000000000) =
      .ok (leBytes 8 (numBits (.vF64 0x3FF8000000000000))) ∧
    decodeFieldStep (fun tn b off => decodeGo docQ 99 tn b off) docQ
        ⟨[⟨.tok "float", "x", none⟩], []⟩
        ([] ++ leBytes 8 0x3FF8000000000000 ++ []) (.ok ([], (([] : List Nat).length : Int)))
        ⟨.tok "float", "x", none⟩ =
      .ok (alSet ([] : List (String × Value)) "x" (mkF64Value 0x3FF8000000000000),
        ((([] : List Nat).length : Int)) + 8) := by
  have h := claim_C8 (fun tn o => encodeGo docQ 99 tn o)
    (fun tn b off => decodeGo docQ 99 tn b off) docQ
    ⟨[⟨.tok "float", "x", none⟩], []⟩ "x" none (.vF64 0x3FF8000000000000)
    0x3FF8000000000000 0x3DCCCCCD [] [] []
    (by norm_num) (by norm_num)
  exact ⟨by norm_num, by norm_num, h.1, h.2.2.2.2.2.1⟩

/-- C10: a `bool` field's wire byte decodes through `!= 0`: byte 0 becomes
`false` and every nonzero byte becomes `true`, always without error, even
though the encoder itself only ever emits the bytes 0 (for `false`) and 1
(for `true`). -/

theorem claim_C10
    (enc : String → List (String × Value) → Except String (List Nat))
    (dec : String → List Nat → Int → Except String (List (String × Value)))
    (doc : SchemaDocument) (st : StructDef) (fname : String) (dflt : Option String)
    (x : Nat) (P R : List Nat) (acc : List (String × Value)) :
    decodeFieldStep dec doc st (P ++ [x] ++ R) (.ok (acc, (P.length : Int)))
        ⟨.tok "bool", fname, dflt⟩ =
      .ok (alSet acc fname (.vBool (x != 0)), (P.length : Int) + 1) ∧
    ((0 : Nat) != 0) = false ∧ (x ≠ 0 → (x != 0) = true) ∧
    (∀ b : Bool, encodeFieldValue enc doc st ⟨.tok "bool", fname, dflt⟩ (.vBool b) =
      .ok [if b then 1 else 0]) := by
  refine ⟨?_, rfl, fun hx => by simpa using hx,
    fun b => encodeFieldValue_bool enc doc st fname dflt b⟩
  have hcons : P ++ [x] ++ R = P ++ x :: R := by simp
  simp only [decodeFieldStep]
  rw [exceptBind_ok]
  dsimp only
  rw [if_neg (by
    simp only [List.length_append, List.length_cons, List.length_nil]
    push_cast
    omega)]
  rw [if_neg (by decide), if_neg (by decide), if_neg (by decide), if_pos (by decide)]
  rw [hcons, bufGet_append]
  rfl

/-- C10 witness: byte 7 (never emitted by encode) decodes to `true` in
`docB`'s struct, and encode emits byte 1 for `true`. -/

theorem claim_C10_witness :
    decodeFieldStep (fun tn b off => decodeGo docB 99 tn b off) docB
        ⟨[⟨.tok "bool", "b", none⟩], []⟩ ([] ++ [7] ++ [])
        (.ok ([], (([] : List Nat).length : Int))) ⟨.tok "bool", "b", none⟩ =
      .ok (alSet ([] : List (String × Value)) "b" (.vBool ((7 : Nat) != 0)), ((([] : List Nat).length : Int)) + 1) ∧
    ((7 : Nat) ≠ 0 → ((7 : Nat) != 0) = true) ∧
    encodeFieldValue (fun tn o => encodeGo docB 99 tn o) docB
        ⟨[⟨.tok "bool", "b", none⟩], []⟩ ⟨.tok "bool", "b", none⟩ (.vBool true) =
      .ok [if true then 1 else 0] := by
  have h := claim_C10 (fun tn o => encodeGo docB 99 tn o)
    (fun tn b off => decodeGo docB 99 tn b off) docB
    ⟨[⟨.tok "bool", "b", none⟩], []⟩ "b" none 7 [] [] []
  exact ⟨h.1, h.2.2.1, h.2.2.2 true⟩

/-- C9: for a ready object, appending arbitrary trailing bytes to the
encoding changes nothing: decode returns the same object, and the field
loop's final cursor equals the encoding's length, so exactly the encoded
bytes are consumed and the trailing bytes are ignored. -/

theorem claim_C9 (doc : SchemaDocument) (typeName : String) (st : StructDef)
    (obj : List (String × Value)) (T : List Nat)
    (hst : alGet doc.structs typeName = some st)
    (hready : structReady doc st obj = true) :
    ∃ (bs : List Nat) (res : List (String × Value)),
      encode doc typeName obj = .ok bs ∧
      decode doc typeName bs = .ok res ∧
      decode doc typeName (bs ++ T) = .ok res ∧
      decodeFields (fun tn b off => decodeGo doc 99 tn b off) doc st st.fields
        (bs ++ T) 0 = .ok (res, (bs.length : Int)) := by
  obtain ⟨bs, res, he, hT, hd, _⟩ := encode_decode_core doc typeName st obj hst hready
  exact ⟨bs, res, he, hd, (hT T).2, (hT T).1⟩

/-- C9 witness: scenario 1's schema and value with trailing junk `[250, 251]`. -/

theorem claim_C9_witness :
    alGet docP.structs "P" = some ⟨[
      ⟨.intType "int8" (some (-5, 5)), "x", none⟩,
      ⟨.tok "bool", "ok", none⟩,
      ⟨.tok "string", "name", none⟩], []⟩ ∧
    structReady docP ⟨[
      ⟨.intType "int8" (some (-5, 5)), "x", none⟩,
      ⟨.tok "bool", "ok", none⟩,
      ⟨.tok "string", "name", none⟩], []⟩
      [("x", .vInt 3), ("ok", .vBool true), ("name", .vStr "hi")] = true ∧
    ∃ (bs : List Nat) (res : List (String × Value)),
      encode docP "P" [("x", .vInt 3), ("ok", .vBool true), ("name", .vStr "hi")] = .ok bs ∧
      decode docP "P" bs = .ok res ∧
      decode docP "P" (bs ++ [250, 251]) = .ok res ∧
      decodeFields (fun tn b off => decodeGo docP 99 tn b off) docP ⟨[
          ⟨.intType "int8" (some (-5, 5)), "x", none⟩,
          ⟨.tok "bool", "ok", none⟩,
          ⟨.tok "string", "name", none⟩], []⟩
        (⟨[
          ⟨.intType "int8" (some (-5, 5)), "x", none⟩,
          ⟨.tok "bool", "ok", none⟩,
          ⟨.tok "string", "name", none⟩], []⟩ : StructDef).fields
        (bs ++ [250, 251]) 0 = .ok (res, (bs.length : Int)) :=
  ⟨rfl, rfl, claim_C9 docP "P" _ _ [250, 251] rfl rfl⟩

/-! ## C4: which field types can make `decode` throw -/

/-- Does decoding this field never throw?  Fixed-width reads (`DataView`
windows) are the only throwing reads; nested structs recurse (and can
contain such reads). -/

theorem decodeFieldStep_total
    (dec : String → List Nat → Int → Except String (List (String × Value)))
    (doc : SchemaDocument) (st : StructDef) (f : Field) (buf : List Nat)
    (acc : List (String × Value)) (pos : Int)
    (hf : fieldNeverErrors doc st f = true) :
    ∃ (acc' : List (String × Value)) (pos' : Int),
      decodeFieldStep dec doc st buf (.ok (acc, pos)) f = .ok (acc', pos') := by
  by_cases hend : pos ≥ (buf.length : Int)
  · refine ⟨acc, pos, ?_⟩
    simp only [decodeFieldStep]
    rw [exceptBind_ok]
    dsimp only
    rw [if_pos hend]
    rfl
  · obtain ⟨ftype, fname, dflt⟩ := f
    cases ftype with
    | intType name rng => simp [fieldNeverErrors] at hf
    | tok t =>
        simp only [fieldNeverErrors, Bool.or_eq_true, decide_eq_true_eq] at hf
        simp only [decodeFieldStep]
        rw [exceptBind_ok]
        dsimp only
        rw [if_neg hend]
        by_cases hbad : t = "int" ∨ t = "float" ∨ t = "float64" ∨ t = "float32"
        · exfalso
          rw [if_pos (by tauto)] at hf
          exact absurd hf (by simp)
        · push_neg at hbad
          obtain ⟨hInt, hF1, hF64, hF32⟩ := hbad
          by_cases hStr : t = "string"
          · subst hStr
            rw [if_neg (by decide), if_pos (by decide)]
            exact ⟨_, _, rfl⟩
          · by_cases hAny : t = "any"
            · subst hAny
              rw [if_neg (by decide), if_neg (by decide), if_pos (by decide)]
              exact ⟨_, _, rfl⟩
            · by_cases hBool : t = "bool"
              · subst hBool
                rw [if_neg (by decide), if_neg (by decide), if_neg (by decide),
                  if_pos (by decide)]
                exact ⟨_, _, rfl⟩
              · rw [if_neg hInt, if_neg hStr, if_neg hAny, if_neg hBool,
                  if_neg (by simp [hF1, hF64]), if_neg hF32]
                rw [if_neg (by tauto), if_neg (by tauto)] at hf
                cases hre : resolveEnum doc st t with
                | some e => exact ⟨_, _, rfl⟩
                | none =>
                    rw [hre] at hf
                    simp at hf
                    rw [hf]
                    exact ⟨acc, pos, rfl⟩

theorem decodeFields_total
    (dec : String → List Nat → Int → Except String (List (String × Value)))
    (doc : SchemaDocument) (st : StructDef) (fields : List Field) (buf : List Nat)
    (hf : fields.all (fieldNeverErrors doc st) = true) :
    ∀ (acc : List (String × Value)) (pos : Int),
    ∃ (acc' : List (String × Value)) (pos' : Int),
      List.foldl (decodeFieldStep dec doc st buf) (.ok (acc, pos)) fields =
        .ok (acc', pos') := by
  induction fields with
  | nil => exact fun acc pos => ⟨acc, pos, rfl⟩
  | cons f fs ih =>
      intro acc pos
      simp only [List.all_cons, Bool.and_eq_true] at hf
      obtain ⟨acc1, pos1, h1⟩ := decodeFieldStep_total dec doc st f buf acc pos hf.1
      obtain ⟨acc', pos', h2⟩ := ih hf.2 acc1 pos1
      exact ⟨acc', pos', by rw [List.foldl_cons, h1, h2]⟩

theorem decodeFields_exhausted
    (dec : String → List Nat → Int → Except String (List (String × Value)))
    (doc : SchemaDocument) (st : StructDef) (fields : List Field) (buf : List Nat)
    (acc : List (String × Value)) (pos : Int) (hend : pos ≥ (buf.length : Int)) :
    List.foldl (decodeFieldStep dec doc st buf) (.ok (acc, pos)) fields =
      .ok (acc, pos) := by
  induction fields with
  | nil => rfl
  | cons f fs ih =>
      rw [List.foldl_cons]
      have h1 : decodeFieldStep dec doc st buf (.ok (acc, pos)) f = .ok (acc, pos) := by
        simp only [decodeFieldStep]
        rw [exceptBind_ok]
        dsimp only
        rw [if_pos hend]
        rfl
      rw [h1, ih]

/-- C4 (counterexample to the claim as stated): the one-byte buffer `[0]`
is a strict prefix of the full 8-byte encoding of `{x:1.5}` under `docQ`'s
single-`float` struct, yet decoding it throws `RangeError`: the per-field
`DataView` window of a fixed-width read does not fit a mid-field-truncated
buffer.  Truncation at a field boundary (the empty buffer) stays
error-free. -/

theorem claim_C4_counterexample :
    encode docQ "Q" [("x", .vF64 0x3FF8000000000000)] =
      .ok [0, 0, 0, 0, 0, 0, 0xF8, 0x3F] ∧
    [0, 0, 0, 0, 0, 0, 0xF8, 0x3F].take 1 = [0] ∧
    decode docQ "Q" [0] = .error "RangeError" ∧
    decode docQ "Q" [] = .ok [] :=
  ⟨rfl, rfl, rfl, rfl⟩

/-- C4 (amended): decode throws `Unknown struct` on an undeclared struct
name; for a declared struct it never throws as long as no field forces a
fixed-width `DataView` read or a nested-struct recursion
(`decodeTotal`); and for any declared struct whatsoever, a buffer already
exhausted at the first field (truncation at that field boundary) decodes
without error to the empty object.  (Mid-field truncation of fixed-width
fields, by contrast, throws — see the counterexample.) -/

theorem claim_C4 (doc : SchemaDocument) (typeName badName : String) (st : StructDef)
    (buf : List Nat) (off : Int)
    (hst : alGet doc.structs typeName = some st)
    (hbad : alGet doc.structs badName = none)
    (htot : decodeTotal doc st = true) :
    (∃ res, decode doc typeName buf off = .ok res) ∧
    (off ≥ (buf.length : Int) → decode doc typeName buf off = .ok []) ∧
    decode doc badName buf off = .error ("Unknown struct: " ++ badName) := by
  refine ⟨?_, ?_, ?_⟩
  · show ∃ res, decodeGo doc 100 typeName buf off = .ok res
    rw [show (100 : Nat) = 99 + 1 from rfl, decodeGo_succ, hst]
    dsimp only
    obtain ⟨acc', pos', h⟩ := decodeFields_total
      (fun tn b o => decodeGo doc 99 tn b o) doc st st.fields buf htot [] off
    refine ⟨acc', ?_⟩
    unfold decodeFields
    rw [h, exceptBind_ok]
    rfl
  · intro hend
    show decodeGo doc 100 typeName buf off = .ok []
    rw [show (100 : Nat) = 99 + 1 from rfl, decodeGo_succ, hst]
    dsimp only
    unfold decodeFields
    rw [decodeFields_exhausted (fun tn b o => decodeGo doc 99 tn b o) doc st st.fields
      buf [] off hend, exceptBind_ok]
    rfl
  · show decodeGo doc 100 badName buf off = _
    rw [show (100 : Nat) = 99 + 1 from rfl, decodeGo_succ, hbad]

/-- C4 witness: `docB` (one `bool` field, never-throwing), an arbitrary
junk buffer, and the undeclared name `Z`. -/

theorem claim_C4_witness :
    alGet docB.structs "B" = some ⟨[⟨.tok "bool", "b", none⟩], []⟩ ∧
    alGet docB.structs "Z" = none ∧
    decodeTotal docB ⟨[⟨.tok "bool", "b", none⟩], []⟩ = true ∧
    (∃ res, decode docB "B" [9, 9, 9] 3 = .ok res) ∧
    ((3 : Int) ≥ (([9, 9, 9] : List Nat).length : Int) →
      decode docB "B" [9, 9, 9] 3 = .ok []) ∧
    decode docB "Z" [9, 9, 9] 3 = .error ("Unknown struct: " ++ "Z") := by
  have h := claim_C4 docB "B" "Z" ⟨[⟨.tok "bool", "b", none⟩], []⟩ [9, 9, 9] 3
    rfl rfl rfl
  exact ⟨rfl, rfl, rfl, h.1, h.2.1, h.2.2⟩

/-- C2: for every integer keyword (every key of `INT_TYPES`, each with its
intrinsic bounds) and every declared range whose endpoints the schema's
number literals denote, field compilation (`mkIntFieldType`, the step
`parseStructBody` runs on each ranged integer field) fails with the
`Schema error: range ... outside intrinsic bounds ...` message naming the
offending field exactly when the declared range leaves the intrinsic
bounds, and succeeds (yielding the ranged integer field type) whenever it
stays inside them; the two closing conjuncts run the whole text-level
pipeline on a failing and a succeeding schema. -/

theorem claim_C2 (structName fieldName name : String) (a b rawType : List Char)
    (rmin rmax iMin iMax : Int)
    (ha : jsNumberInt a = some rmin) (hb : jsNumberInt b = some rmax)
    (hib : intrinsicBoundsForInt name = some (iMin, iMax)) :
    ((rmin < iMin ∨ rmax > iMax) →
      mkIntFieldType structName fieldName name (some (a, b)) rawType =
        .error ("Schema error: range [" ++ toString rmin ++ "," ++ toString rmax ++
          "] outside intrinsic bounds of " ++ name ++
          " (" ++ toString iMin ++ ".." ++ toString iMax ++ ")" ++
          " (field " ++ structName ++ "." ++ fieldName ++ ")")) ∧
    ((iMin ≤ rmin ∧ rmax ≤ iMax) →
      mkIntFieldType structName fieldName name (some (a, b)) rawType =
        .ok (.intType name (some (rmin, rmax)))) ∧
    parseSchema "struct S \x7b int8[-5,200] x; \x7d" =
      .error "Schema error: range [-5,200] outside intrinsic bounds of int8 (-128..127) (field S.x)" ∧
    parseSchema schemaP = .ok docP := by
  refine ⟨?_, ?_, rfl, rfl⟩
  · intro hout
    simp only [mkIntFieldType, ha, hb]
    unfold validateRangeAgainstIntrinsic
    rw [hib]
    dsimp only
    rw [if_pos (by simp only [Bool.or_eq_true, decide_eq_true_eq]; omega)]
  · intro hin
    simp only [mkIntFieldType, ha, hb]
    unfold validateRangeAgainstIntrinsic
    rw [hib]
    dsimp only
    rw [if_neg (by simp only [Bool.or_eq_true, decide_eq_true_eq]; omega)]

/-- C2 witness: the `int8` keyword with the in-bounds range `[-5,5]` and
the out-of-bounds range `[-5,200]`. -/

theorem claim_C2_witness :
    jsNumberInt "-5".data = some (-5) ∧ jsNumberInt "200".data = some 200 ∧
    jsNumberInt "5".data = some 5 ∧
    intrinsicBoundsForInt "int8" = some (-128, 127) ∧
    (((-5 : Int) < -128 ∨ (200 : Int) > 127) →
      mkIntFieldType "S" "x" "int8" (some ("-5".data, "200".data)) "int8[-5,200]".data =
        .error ("Schema error: range [" ++ toString (-5 : Int) ++ "," ++
          toString (200 : Int) ++ "] outside intrinsic bounds of " ++ "int8" ++
          " (" ++ toString (-128 : Int) ++ ".." ++ toString (127 : Int) ++ ")" ++
          " (field " ++ "S" ++ "." ++ "x" ++ ")")) ∧
    (((-128 : Int) ≤ -5 ∧ (5 : Int) ≤ 127) →
      mkIntFieldType "S" "x" "int8" (some ("-5".data, "5".data)) "int8[-5,5]".data =
        .ok (.intType "int8" (some (-5, 5)))) := by
  have h1 := claim_C2 "S" "x" "int8" "-5".data "200".data "int8[-5,200]".data
    (-5) 200 (-128) 127 rfl rfl rfl
  have h2 := claim_C2 "S" "x" "int8" "-5".data "5".data "int8[-5,5]".data
    (-5) 5 (-128) 127 rfl rfl rfl
  exact ⟨rfl, rfl, rfl, rfl, h1.1, h2.2.1⟩

/-! ## C9's counterexample: a `2^31`-byte string payload overflows the
int32 varint length on decode -/

theorem decodeVarintGo_step (fuel : Nat) (buf : List Nat) (pos num : Int) (shift : Nat) :
    decodeVarintGo (fuel + 1) buf pos num shift =
      (let b := bufGet buf pos
       let num' := jsOr num (jsShl ((Nat.land b 0x7f : Nat) : Int) shift)
       if Nat.land b 0x80 = 0 then (num', pos + 1)
       else decodeVarintGo fuel buf (pos + 1) num' (shift + 7)) := rfl

theorem decodeVarint_overflow (rest : List Nat) :
    decodeVarint ([128, 128, 128, 128, 8] ++ rest) 0 = (-2147483648, 5) := by
  unfold decodeVarint
  have h0 : ([128, 128, 128, 128, 8] ++ rest).length + 1 = rest.length + 6 := by
    simp only [List.length_append, List.length_cons, List.length_nil]
    omega
  have hnum : jsOr 0 (jsShl ((Nat.land 128 0x7f : Nat) : Int) 0) = 0 := by decide
  have hnum7 : jsOr 0 (jsShl ((Nat.land 128 0x7f : Nat) : Int) 7) = 0 := by decide
  have hnum14 : jsOr 0 (jsShl ((Nat.land 128 0x7f : Nat) : Int) 14) = 0 := by decide
  have hnum21 : jsOr 0 (jsShl ((Nat.land 128 0x7f : Nat) : Int) 21) = 0 := by decide
  have hnum28 : jsOr 0 (jsShl ((Nat.land 8 0x7f : Nat) : Int) 28) = -2147483648 := by
    decide
  calc decodeVarintGo (([128, 128, 128, 128, 8] ++ rest).length + 1)
        ([128, 128, 128, 128, 8] ++ rest) 0 0 0
      = decodeVarintGo (rest.length + 6) ([128, 128, 128, 128, 8] ++ rest) 0 0 0 := by
        rw [h0]
    _ = decodeVarintGo (rest.length + 5) ([128, 128, 128, 128, 8] ++ rest) 1 0 7 := by
        rw [show rest.length + 6 = rest.length + 5 + 1 from by omega, decodeVarintGo_step]
        dsimp only
        rw [show bufGet ([128, 128, 128, 128, 8] ++ rest) 0 = 128 from rfl,
          if_neg (by decide), hnum]
        norm_num
    _ = decodeVarintGo (rest.length + 4) ([128, 128, 128, 128, 8] ++ rest) 2 0 14 := by
        rw [show rest.length + 5 = rest.length + 4 + 1 from by omega, decodeVarintGo_step]
        dsimp only
        rw [show bufGet ([128, 128, 128, 128, 8] ++ rest) 1 = 128 from rfl,
          if_neg (by decide), hnum7]
        norm_num
    _ = decodeVarintGo (rest.length + 3) ([128, 128, 128, 128, 8] ++ rest) 3 0 21 := by
        rw [show rest.length + 4 = rest.length + 3 + 1 from by omega, decodeVarintGo_step]
        dsimp only
        rw [show bufGet ([128, 128, 128, 128, 8] ++ rest) 2 = 128 from rfl,
          if_neg (by decide), hnum14]
        norm_num
    _ = decodeVarintGo (rest.length + 2) ([128, 128, 128, 128, 8] ++ rest) 4 0 28 := by
        rw [show rest.length + 3 = rest.length + 2 + 1 from by omega, decodeVarintGo_step]
        dsimp only
        rw [show bufGet ([128, 128, 128, 128, 8] ++ rest) 3 = 128 from rfl,
          if_neg (by decide), hnum21]
        norm_num
    _ = (-2147483648, 5) := by
        rw [show rest.length + 2 = rest.length + 1 + 1 from by omega, decodeVarintGo_step]
        dsimp only
        rw [show bufGet ([128, 128, 128, 128, 8] ++ rest) 4 = 8 from rfl,
          if_pos (by decide), hnum28]
        norm_num

theorem utf8Encode_replicate_a (n : Nat) :
    (List.replicate n 'a').flatMap utf8EncodeChar = List.replicate n 97 := by
  induction n with
  | zero => rfl
  | succ k ih =>
      rw [List.replicate_succ, List.flatMap_cons, ih]
      rfl

theorem utf8Encode_bigStr : utf8Encode bigStr = List.replicate (2 ^ 31) 97 := by
  unfold utf8Encode bigStr
  exact utf8Encode_replicate_a _

theorem utf8Decode_replicate97 (m : Nat) :
    utf8Decode (List.replicate m 97) = List.replicate m 'a' := by
  have h := utf8Decode_encode_append (List.replicate m 'a') []
  rw [utf8Encode_replicate_a, List.append_nil, utf8Decode_nil, List.append_nil] at h
  exact h

theorem jsClampIndex_neg (len : Nat) (i : Int) (h : i < 0) (k : Nat)
    (hk : (len : Int) + i = (k : Int)) : jsClampIndex len i = k := by
  unfold jsClampIndex
  rw [if_pos h, hk, max_eq_left (by positivity)]
  exact Int.toNat_natCast k

theorem encode_bigStr :
    encode docStr "S" [("name", .vStr bigStr)] =
      .ok ([128, 128, 128, 128, 8] ++ List.replicate (2 ^ 31) 97) := by
  show encodeGo docStr 100 "S" _ = _
  rw [show (100 : Nat) = 99 + 1 from rfl, encodeGo_succ,
    show alGet docStr.structs "S" = some ⟨[⟨.tok "string", "name", none⟩], []⟩ from rfl]
  dsimp only
  unfold encodeFields
  rw [List.foldl_cons,
    encodeFieldStep_ok (fun tn o => encodeGo docStr 99 tn o) docStr
      ⟨[⟨.tok "string", "name", none⟩], []⟩ "S" [("name", .vStr bigStr)] []
      ⟨.tok "string", "name", none⟩ (.vStr bigStr)
      (encodeVarint ((utf8Encode bigStr).length : Int) ++ utf8Encode bigStr)
      rfl rfl
      (encodeFieldValue_string (fun tn o => encodeGo docStr 99 tn o) docStr
        ⟨[⟨.tok "string", "name", none⟩], []⟩ "name" none bigStr),
    List.foldl_nil]
  rw [utf8Encode_bigStr, List.length_replicate,
    show encodeVarint (((2 ^ 31 : Nat) : Int)) = [128, 128, 128, 128, 8] from by decide,
    List.nil_append]

theorem slice_bigStr (T : List Nat) (hT : T.length ≤ 100) :
    jsSliceBytes ([128, 128, 128, 128, 8] ++ (List.replicate (2 ^ 31) 97 ++ T))
      5 (5 + -2147483648) = List.replicate (5 + T.length) 97 := by
  have hL : ([128, 128, 128, 128, 8] ++ (List.replicate (2 ^ 31) 97 ++ T)).length =
      2 ^ 31 + 5 + T.length := by
    simp only [List.length_append, List.length_cons, List.length_nil,
      List.length_replicate]
    omega
  have hclampA : jsClampIndex
      ([128, 128, 128, 128, 8] ++ (List.replicate (2 ^ 31) 97 ++ T)).length 5 = 5 := by
    apply jsClampIndex_of_le
    · norm_num
    · rw [hL]; push_cast; omega
  have hclampB : jsClampIndex
      ([128, 128, 128, 128, 8] ++ (List.replicate (2 ^ 31) 97 ++ T)).length
      (5 + -2147483648) = 10 + T.length := by
    apply jsClampIndex_neg
    · norm_num
    · rw [hL]; push_cast; omega
  unfold jsSliceBytes
  rw [hclampA, hclampB]
  rw [List.take_append_eq_append_take]
  rw [List.take_all_of_le (by simp; omega)]
  simp only [List.length_cons, List.length_nil]
  rw [List.take_append_eq_append_take, List.take_replicate, List.length_replicate]
  rw [show 10 + T.length - 5 = 5 + T.length from by omega,
    show min (5 + T.length) (2 ^ 31) = 5 + T.length from by omega,
    show 5 + T.length - 2 ^ 31 = 0 from by omega,
    List.take_zero, List.append_nil]
  have hdrop := List.drop_left [128, 128, 128, 128, 8] (List.replicate (5 + T.length) 97)
  simpa using hdrop

theorem decodeFields_bigStr (T : List Nat) (hT : T.length ≤ 100) :
    decodeFields (fun tn b off => decodeGo docStr 99 tn b off) docStr
        ⟨[⟨.tok "string", "name", none⟩], []⟩ [⟨.tok "string", "name", none⟩]
        (([128, 128, 128, 128, 8] ++ List.replicate (2 ^ 31) 97) ++ T) 0 =
      .ok ([("name", .vStr (String.mk (List.replicate (5 + T.length) 'a')))],
        5 + -2147483648) := by
  have hassoc : ([128, 128, 128, 128, 8] ++ List.replicate (2 ^ 31) 97) ++ T =
      [128, 128, 128, 128, 8] ++ (List.replicate (2 ^ 31) 97 ++ T) := by
    rw [List.append_assoc]
  have hL : ([128, 128, 128, 128, 8] ++ (List.replicate (2 ^ 31) 97 ++ T)).length =
      2 ^ 31 + 5 + T.length := by
    simp only [List.length_append, List.length_cons, List.length_nil,
      List.length_replicate]
    omega
  unfold decodeFields
  rw [List.foldl_cons, List.foldl_nil, hassoc]
  simp only [decodeFieldStep]
  rw [exceptBind_ok]
  dsimp only
  rw [if_neg (by
    rw [hL]
    push_cast
    omega)]
  rw [if_neg (by decide), if_pos (by decide)]
  rw [decodeVarint_overflow (List.replicate (2 ^ 31) 97 ++ T)]
  dsimp only
  rw [slice_bigStr T hT, utf8Decode_replicate97]
  rfl

theorem len_prefix_replicate (n : Nat) :
    ([128, 128, 128, 128, 8] ++ List.replicate n 97).length = n + 5 := by
  simp only [List.length_append, List.length_cons, List.length_nil,
    List.length_replicate]
  omega

/-- C9 (counterexample to the claim as stated): the validator accepts a
`2^31`-character string value (it checks only `typeof`), its encoding is
the 5-byte varint of `2^31` followed by the `2^31` payload bytes, but on
decode the length varint is reassembled with JS int32 arithmetic
(`num |= (b & 0x7f) << shift`), so `2^31` comes back as `-2^31`: the slice
end `p2 + len` turns into a from-the-end index, decode returns `"aaaaa"`
instead of the original string, appending one trailing byte changes the
result to `"aaaaaa"`, and the field loop's final cursor is `5 - 2^31`
rather than the encoding's length `2^31 + 5`. -/

theorem claim_C9_counterexample :
    validateValueForField docStr (.tok "string") (.vStr bigStr) "S.name" [] = .ok () ∧
    encode docStr "S" [("name", .vStr bigStr)] =
      .ok ([128, 128, 128, 128, 8] ++ List.replicate (2 ^ 31) 97) ∧
    decode docStr "S" ([128, 128, 128, 128, 8] ++ List.replicate (2 ^ 31) 97) =
      .ok [("name", .vStr "aaaaa")] ∧
    decode docStr "S" (([128, 128, 128, 128, 8] ++ List.replicate (2 ^ 31) 97) ++ [97]) =
      .ok [("name", .vStr "aaaaaa")] ∧
    decodeFields (fun tn b off => decodeGo docStr 99 tn b off) docStr
      ⟨[⟨.tok "string", "name", none⟩], []⟩ [⟨.tok "string", "name", none⟩]
      (([128, 128, 128, 128, 8] ++ List.replicate (2 ^ 31) 97) ++ []) 0 =
      .ok ([("name", .vStr "aaaaa")], 5 + -2147483648) ∧
    ((([128, 128, 128, 128, 8] ++ List.replicate (2 ^ 31) 97).length : Nat) : Int) =
      2 ^ 31 + 5 ∧
    ¬((5 + -2147483648 : Int) = 2 ^ 31 + 5) ∧
    ¬(Value.vStr "aaaaa" = Value.vStr "aaaaaa") := by
  have hfields0 := decodeFields_bigStr [] (by norm_num)
  have hfields1 := decodeFields_bigStr [97] (by norm_num)
  have hs0 : String.mk (List.replicate (5 + ([] : List Nat).length) 'a') = "aaaaa" := by
    decide
  have hs1 : String.mk (List.replicate (5 + ([97] : List Nat).length) 'a') = "aaaaaa" := by
    decide
  rw [hs0] at hfields0
  rw [hs1] at hfields1
  refine ⟨rfl, encode_bigStr, ?_, ?_, hfields0, ?_, by decide,
    fun h => absurd (Value.vStr.inj h) (by decide)⟩
  · show decodeGo docStr 100 "S" _ 0 = _
    rw [show (100 : Nat) = 99 + 1 from rfl, decodeGo_succ,
      show alGet docStr.structs "S" = some ⟨[⟨.tok "string", "name", none⟩], []⟩ from rfl]
    dsimp only
    have h := hfields0
    rw [List.append_nil] at h
    rw [h, exceptBind_ok]
    rfl
  · show decodeGo docStr 100 "S" _ 0 = _
    rw [show (100 : Nat) = 99 + 1 from rfl, decodeGo_succ,
      show alGet docStr.structs "S" = some ⟨[⟨.tok "string", "name", none⟩], []⟩ from rfl]
    dsimp only
    rw [hfields1, exceptBind_ok]
    rfl
  · rw [len_prefix_replicate]
    push_cast

end StructExt
